import Mathlib

/-!
Formal model of the memory-augmented chat core of the `moach` repository:
the memory store (`src/lib/ai/tools/memory/functions.ts`), its zod input
schemas (`src/lib/ai/tools/memory/schemas.ts`), and the conversation /
message persistence layer (`src/lib/database/conversations.ts`,
`src/lib/database/messages.ts`, `src/lib/database/schema.ts`).

External collaborators (embedding service, title generation, JSON
serialization of message parts, the resolved auth user) are modelled as
parameters bundled in `Env`; a TypeScript function that can throw is
modelled with `Except`.  The SQL tables are lists of rows; `ORDER BY` is
modelled with `List.insertionSort`, SQLite `LIKE` with an explicit
matcher (ASCII-case-insensitive, `%`/`_` wildcards, no ESCAPE clause),
and SQLite `LIMIT` with `sqlLimit` (negative means unbounded, a
non-integer operand is a runtime error).  An absent tool-layer `limit`
takes the source's parameter default (5 for semantic search, 10 for tag
search) before it reaches SQL.
-/

namespace Moach

/-- A JSON-ish runtime value, as received over the LLM tool boundary and
checked by the zod schemas (`z.string()`, `z.number()`, `z.array(...)`). -/
inductive JValue where
  | jstr : String → JValue
  | jnum : ℚ → JValue
  | jbool : Bool → JValue
  | jarr : List JValue → JValue
  | jnull : JValue

/-- `z.string().safeParse`: succeeds exactly on strings (no length bound). -/
def JValue.asStr : JValue → Option String
  | .jstr s => some s
  | _ => none

/-- `z.number().safeParse`: succeeds exactly on numbers (no bounds, no
integrality requirement). -/
def JValue.asNum : JValue → Option ℚ
  | .jnum q => some q
  | _ => none

/-- `z.number().optional().safeParse`: a number or an absent value. -/
def JValue.asNumOpt : JValue → Option (Option ℚ)
  | .jnum q => some (some q)
  | .jnull => some none
  | _ => none

/-- Elementwise string check of a JSON array body. -/
def strListOf : List JValue → Option (List String)
  | [] => some []
  | v :: l =>
    match v.asStr, strListOf l with
    | some s, some r => some (s :: r)
    | _, _ => none

/-- `z.array(z.string()).safeParse`: an array whose elements are all strings. -/
def JValue.asStrArr : JValue → Option (List String)
  | .jarr l => strListOf l
  | _ => none

/-- The double-quote character. -/
def dq : Char := Char.ofNat 34

/-- The backslash character. -/
def bsl : Char := Char.ofNat 92

/-- Lowercase hexadecimal digit, as emitted by `JSON.stringify` in
`\u00XX` escapes. -/
def hexDigit (n : ℕ) : Char :=
  if n < 10 then Char.ofNat (48 + n) else Char.ofNat (87 + n)

/-- JSON string escaping of one character, per `JSON.stringify`: quote
and backslash are backslash-escaped, the control characters
U+0000–U+001F become `\b`, `\t`, `\n`, `\f`, `\r` or `\u00XX`, every
other character is emitted as is. -/
def jsonEscapeChar (c : Char) : List Char :=
  if c = dq ∨ c = bsl then [bsl, c]
  else if c.toNat = 8 then [bsl, 'b']
  else if c.toNat = 9 then [bsl, 't']
  else if c.toNat = 10 then [bsl, 'n']
  else if c.toNat = 12 then [bsl, 'f']
  else if c.toNat = 13 then [bsl, 'r']
  else if c.toNat < 32 then
    [bsl, 'u', '0', '0', hexDigit (c.toNat / 16), hexDigit (c.toNat % 16)]
  else [c]

/-- Characters of the JSON encoding of one string, quotes included. -/
def jsonQuote (t : List Char) : List Char :=
  dq :: t.flatMap jsonEscapeChar ++ [dq]

/-- Characters of the comma-separated body of a JSON string array. -/
def jsonBody : List (List Char) → List Char
  | [] => []
  | [t] => jsonQuote t
  | t :: ts => jsonQuote t ++ ',' :: jsonBody ts

/-- `JSON.stringify` of a string array, as stored in the `memory.tags`
text column. -/
def jsonEncodeTags (ts : List String) : String :=
  ⟨'[' :: jsonBody (ts.map String.data) ++ [']']⟩

/-- Value of one hexadecimal digit character. -/
def hexVal (c : Char) : ℕ :=
  if 97 ≤ c.toNat then c.toNat - 87
  else if 65 ≤ c.toNat then c.toNat - 55
  else c.toNat - 48

/-- The character denoted by a single-letter JSON escape (`\b`, `\t`,
`\n`, `\f`, `\r`; quote, backslash and slash stand for themselves). -/
def unescapeChar (c : Char) : Char :=
  if c = 'b' then Char.ofNat 8
  else if c = 't' then Char.ofNat 9
  else if c = 'n' then Char.ofNat 10
  else if c = 'f' then Char.ofNat 12
  else if c = 'r' then Char.ofNat 13
  else c

/-- State of the `JSON.parse` model for string arrays: inside a string
or not, after a backslash or not, and the hex digits of a pending
`\uXXXX` escape. -/
structure TagParseState where
  inStr : Bool
  esc : Bool
  uni : Option (List Char)
  cur : List Char
  acc : List String

/-- `JSON.parse` of a JSON string array (as produced by
`jsonEncodeTags`), modelled as a character state machine that undoes
the `JSON.stringify` escapes. -/
def jsonDecodeTags (s : String) : List String :=
  let st := s.data.foldl
    (fun (st : TagParseState) (c : Char) =>
      match st.uni with
      | some hs =>
        if hs.length = 3 then
          let code := (hs ++ [c]).foldl (fun a d => 16 * a + hexVal d) 0
          { st with uni := none, cur := st.cur ++ [Char.ofNat code] }
        else { st with uni := some (hs ++ [c]) }
      | none =>
        if st.esc then
          if c = 'u' then { st with esc := false, uni := some [] }
          else { st with esc := false, cur := st.cur ++ [unescapeChar c] }
        else if st.inStr then
          if c = bsl then { st with esc := true }
          else if c = dq then
            { inStr := false, esc := false, uni := none, cur := [],
              acc := st.acc ++ [⟨st.cur⟩] }
          else { st with cur := st.cur ++ [c] }
        else if c = dq then { st with inStr := true, cur := [] }
        else st)
    ({ inStr := false, esc := false, uni := none, cur := [], acc := [] } :
      TagParseState)
  st.acc

/-- ASCII lowering, the case folding SQLite's `LIKE` applies. -/
def likeLower (c : Char) : Char :=
  if 'A' ≤ c ∧ c ≤ 'Z' then Char.ofNat (c.toNat + 32) else c

/-- SQLite `LIKE` matching (no `ESCAPE` clause): `%` matches any
sequence (the rest of the pattern is tried against every suffix), `_`
any single character, other characters match ASCII-case-insensitively. -/
def likeMatchCh : List Char → List Char → Bool
  | [], s => s.isEmpty
  | p :: ps, s =>
    if p = '%' then s.tails.any (fun s' => likeMatchCh ps s')
    else
      match s with
      | [] => false
      | c :: s' =>
        if p = '_' then likeMatchCh ps s'
        else (likeLower p == likeLower c) && likeMatchCh ps s'

/-- SQLite `LIMIT` with a bound numeric parameter: a non-integer
operand is a runtime error ("datatype mismatch"), a negative value
means no bound, otherwise the first `n` rows are kept. -/
def sqlLimit {α : Type} (q : ℚ) (rows : List α) : Except String (List α) :=
  if q.den ≠ 1 then .error "datatype mismatch"
  else if q < 0 then .ok rows
  else .ok (rows.take q.num.toNat)

/-- One content segment of a `UIMessage` (`parts` array element); only
the fields this core inspects are modelled: the `type` discriminator and
the optional `text` field (`none` models an absent field). -/
structure UIPart where
  ptype : String
  text : Option String
deriving DecidableEq

/-- The `role` column enum of the `messages` table. -/
inductive Role where
  | user
  | assistant
  | system
deriving DecidableEq, BEq

/-- A `UIMessage` as handled by the persistence layer: id, role, parts,
optional metadata (already in its structured form). -/
structure UIMessage where
  id : String
  role : Role
  parts : List UIPart
  metadata : Option String
deriving DecidableEq

/-- A row of the `memory` table (`schema.ts`): tags are stored as a JSON
text column, the embedding as a 1536-dimension float vector. -/
structure MemoryRow where
  id : Nat
  key : String
  value : String
  tags : String
  userId : String
  embedding : List ℚ
  createdAt : String
deriving DecidableEq

/-- The `memory` table plus its auto-increment counter. -/
structure MemoryDB where
  rows : List MemoryRow
  nextId : Nat
deriving DecidableEq

/-- A row of the `conversations` table. -/
structure ConversationRow where
  id : String
  userId : String
  title : String
  lastMessageAt : String
  createdAt : String
  updatedAt : String
deriving DecidableEq

/-- A row of the `messages` table; `parts`/`metadata` are JSON text
columns. -/
structure MessageRow where
  id : String
  conversationId : String
  userId : String
  role : Role
  parts : String
  metadata : Option String
  createdAt : String
  messageIndex : Nat
deriving DecidableEq

/-- The conversation store: the `conversations` and `messages` tables. -/
structure ConvDB where
  conversations : List ConversationRow
  messageRows : List MessageRow
deriving DecidableEq

/-- External collaborators, fixed for the duration of one request:
the embedding client (`generateEmbedding`, may fail), the
`vector_distance_cos` SQL function, the external title generation call
(`generateTitle`, may throw), and `JSON.stringify`/`JSON.parse` on
message parts and metadata. -/
structure Env where
  embedText : String → Except String (List ℚ)
  distCos : List ℚ → List ℚ → ℚ
  genTitle : String → Except String String
  encParts : List UIPart → String
  decParts : String → List UIPart
  encMeta : String → String
  decMeta : String → String

/-- A row as shaped by `formatMemoryResults`: tags parsed back from
JSON, the similarity score present only for vector queries. -/
structure FormattedRow where
  id : Nat
  key : String
  value : String
  tags : List String
  created_at : String
  similarity_score : Option ℚ
deriving DecidableEq

/-- The result envelope returned by the memory tool functions. -/
structure MemoryResult where
  success : Bool
  error : Option String := none
  message : Option String := none
  results : Option (List FormattedRow) := none
  count : Option Nat := none
deriving DecidableEq

/-- `formatMemoryResults` applied to one selected row: tag JSON parsed
back, `similarity_score` included only when the query selected it. -/
def formatMemoryRow (r : MemoryRow) (score : Option ℚ) : FormattedRow :=
  { id := r.id, key := r.key, value := r.value, tags := jsonDecodeTags r.tags,
    created_at := r.createdAt, similarity_score := score }

/-- The conflict predicate of the unique `(key, user_id)` constraint. -/
def pkOwner (k uid : String) (r : MemoryRow) : Bool :=
  r.key == k && r.userId == uid

/-- `upsertMemory`: insert into `memory`, on conflict of the unique
`(key, user_id)` pair overwrite `value`, `tags` and `embedding` from the
excluded row (id and created_at keep their original values). -/
def upsertMemory (db : MemoryDB) (now k v tags uid : String) (emb : List ℚ) : MemoryDB :=
  if db.rows.any (pkOwner k uid) then
    { db with rows := db.rows.map (fun r =>
        if pkOwner k uid r then
          { r with value := v, tags := tags, embedding := emb }
        else r) }
  else
    let row : MemoryRow :=
      { id := db.nextId, key := k, value := v, tags := tags,
        userId := uid, embedding := emb, createdAt := now }
    { rows := db.rows ++ [row], nextId := db.nextId + 1 }

/-- `memoryStoreFunction`: validate `(key, value, tags)` against
`memoryStoreSchema`, generate the embedding from `value`, upsert by
`(owner, key)`.  A schema failure or embedding failure returns a failure
result without touching the table. -/
def memoryStoreFunction (env : Env) (db : MemoryDB) (uid now : String)
    (key value tags : JValue) : MemoryResult × MemoryDB :=
  match key.asStr, value.asStr, tags.asStrArr with
  | some k, some v, some ts =>
    match env.embedText v with
    | .error e => ({ success := false, error := some e }, db)
    | .ok emb =>
      ({ success := true, message := some "Memory stored successfully" },
        upsertMemory db now k v (jsonEncodeTags ts) uid emb)
  | _, _, _ => ({ success := false, error := some "Invalid input" }, db)

/-- `memoryUpdateFunction`: identical storage behavior to
`memoryStoreFunction` (both are upserts), differing only in the success
message. -/
def memoryUpdateFunction (env : Env) (db : MemoryDB) (uid now : String)
    (key value tags : JValue) : MemoryResult × MemoryDB :=
  match key.asStr, value.asStr, tags.asStrArr with
  | some k, some v, some ts =>
    match env.embedText v with
    | .error e => ({ success := false, error := some e }, db)
    | .ok emb =>
      ({ success := true, message := some "Memory updated successfully" },
        upsertMemory db now k v (jsonEncodeTags ts) uid emb)
  | _, _, _ => ({ success := false, error := some "Invalid input" }, db)

/-- One element of `memoryStoreMultipleFunction`'s input array, fields
still unvalidated. -/
structure StoreEntryInput where
  key : JValue
  value : JValue
  tags : JValue

/-- Batch schema validation of `memoryStoreMultipleSchema`: every entry
must parse, otherwise the whole batch is rejected. -/
def parseStoreEntries : List StoreEntryInput → Option (List (String × String × List String))
  | [] => some []
  | e :: l =>
    match e.key.asStr, e.value.asStr, e.tags.asStrArr, parseStoreEntries l with
    | some k, some v, some ts, some r => some ((k, v, ts) :: r)
    | _, _, _, _ => none

/-- Embedding generation for a validated batch (`Promise.all` over
`generateEmbedding` of each entry's value): all embeddings resolve
before any write, a single failure rejects the whole batch. -/
def embedEntries (env : Env) :
    List (String × String × List String) →
    Except String (List ((String × String × List String) × List ℚ))
  | [] => .ok []
  | e :: l =>
    match env.embedText e.2.1, embedEntries env l with
    | .error err, _ => .error err
    | .ok _, .error err => .error err
    | .ok emb, .ok r => .ok ((e, emb) :: r)

/-- `memoryStoreMultipleFunction`: validate the whole batch, generate an
embedding per entry (all before any write — `Promise.all` resolves the
embeddings first), then upsert each entry; a single embedding failure
fails the whole call with no row written. -/
def memoryStoreMultipleFunction (env : Env) (db : MemoryDB) (uid now : String)
    (memoryList : List StoreEntryInput) : MemoryResult × MemoryDB :=
  match parseStoreEntries memoryList with
  | none => ({ success := false, error := some "Invalid input" }, db)
  | some entries =>
    match embedEntries env entries with
    | .error err => ({ success := false, error := some err }, db)
    | .ok withEmb =>
      ({ success := true, count := some entries.length,
         message := some "Memories stored successfully" },
        withEmb.foldl
          (fun acc p =>
            upsertMemory acc now p.1.1 p.1.2.1 (jsonEncodeTags p.1.2.2) uid p.2)
          db)

/-- The result of `memoryRetrieveFunction`: formatted rows, the literal
`null`, or a failure envelope. -/
inductive RetrieveResult where
  | rows : List FormattedRow → RetrieveResult
  | nullResult : RetrieveResult
  | failure : String → RetrieveResult
deriving DecidableEq

/-- `memoryRetrieveFunction`: embed the query, select the owner's rows
with their `vector_distance_cos` to the query vector, `ORDER BY
similarity_score ASC LIMIT 5`; a non-empty result is formatted, an empty
one becomes `null`. -/
def memoryRetrieveFunction (env : Env) (db : MemoryDB) (uid : String)
    (embeddingQuery : JValue) : RetrieveResult :=
  match embeddingQuery.asStr with
  | none => .failure "Invalid input"
  | some q =>
    match env.embedText q with
    | .error e => .failure e
    | .ok qe =>
      let scored := (db.rows.filter (fun r => r.userId == uid)).map
        (fun r => (r, env.distCos r.embedding qe))
      let top := (scored.insertionSort (fun a b => a.2 ≤ b.2)).take 5
      if top.length > 0 then
        .rows (top.map (fun p => formatMemoryRow p.1 (some p.2)))
      else .nullResult

/-- `memorySemanticSearchFunction`: like the retrieve function but with
a caller-supplied `LIMIT` (the source's parameter default `limit = 5`
applies when the limit is absent) and always returning a result
envelope (empty result list included). -/
def memorySemanticSearchFunction (env : Env) (db : MemoryDB) (uid : String)
    (embeddingQuery lim : JValue) : MemoryResult :=
  match embeddingQuery.asStr, lim.asNumOpt with
  | some q, some lopt =>
    (match env.embedText q with
    | .error e => { success := false, error := some e }
    | .ok qe =>
      let scored := (db.rows.filter (fun r => r.userId == uid)).map
        (fun r => (r, env.distCos r.embedding qe))
      match sqlLimit (lopt.getD 5) (scored.insertionSort (fun a b => a.2 ≤ b.2)) with
      | .error e => { success := false, error := some e }
      | .ok limited =>
        let results := limited.map (fun p => formatMemoryRow p.1 (some p.2))
        { success := true, results := some results, count := some results.length,
          message := some "Memory semantic search completed successfully" })
  | _, _ => { success := false, error := some "Invalid input" }

/-- `memorySearchByTagsFunction`: for each requested tag build the LIKE
pattern `%"tag"%` against the JSON-encoded `tags` column (OR over the
patterns), restrict to the owner, `ORDER BY created_at DESC`, `LIMIT`
(the source's parameter default `limit = 10` applies when the limit is
absent).  An empty tag list yields an empty parenthesized OR group, an
SQL syntax error at runtime, surfaced as a failure envelope by the
catch block. -/
def memorySearchByTagsFunction (_env : Env) (db : MemoryDB) (uid : String)
    (tags lim : JValue) : MemoryResult :=
  match tags.asStrArr, lim.asNumOpt with
  | some ts, some lopt =>
    (if ts.isEmpty then { success := false, error := some "SQL syntax error" }
    else
      let pats := ts.map (fun t => '%' :: dq :: t.data ++ [dq, '%'])
      let matched := db.rows.filter
        (fun r => r.userId == uid && pats.any (fun p => likeMatchCh p r.tags.data))
      match sqlLimit (lopt.getD 10)
        (matched.insertionSort (fun a b => b.createdAt ≤ a.createdAt)) with
      | .error e => { success := false, error := some e }
      | .ok limited =>
        let results := limited.map (fun r => formatMemoryRow r none)
        { success := true, results := some results, count := some results.length,
          message := some ("Found " ++ toString results.length ++ " memories with tags: "
            ++ String.intercalate ", " ts) })
  | _, _ => { success := false, error := some "Invalid input" }

/-- `memorySemanticSearchSchema.safeParse` on a raw tool input: the
query must be a string, the `limit` an (optional) number — no lower
bound, upper bound or integrality constraint. -/
def memorySemanticSearchSafeParse (embeddingQuery lim : JValue) : Bool :=
  embeddingQuery.asStr.isSome && lim.asNumOpt.isSome

/-- `memoryStoreSchema.safeParse` on a raw tool input: key and value
must be strings (empty permitted), tags an array of strings. -/
def memoryStoreSafeParse (key value tags : JValue) : Bool :=
  key.asStr.isSome && value.asStr.isSome && tags.asStrArr.isSome

/-- `generateConversationTitle`: the external `generateTitle` call with
the JS falsy-fallback `title || 'New Conversation'`; a thrown error
propagates. -/
def generateConversationTitle (env : Env) (firstUserMessage : String) :
    Except String String :=
  (env.genTitle firstUserMessage).map
    (fun t => if t = "" then "New Conversation" else t)

/-- `generateTitleIfNotProvided`: find the first user-role message and
its first `text` part; call the title generation on its text, otherwise
keep the default title. -/
def generateTitleIfNotProvided (env : Env) (uiMessages : List UIMessage) :
    Except String String :=
  match uiMessages.find? (fun m => m.role == Role.user) with
  | none => .ok "New Conversation"
  | some fm =>
    match fm.parts.find? (fun p => p.ptype == "text") with
    | none => .ok "New Conversation"
    | some p =>
      match p.text with
      | none => .ok "New Conversation"
      | some txt => generateConversationTitle env txt

/-- `doesConversationExist`: `SELECT * FROM conversations WHERE id = ?`
— the query filters by conversation id only, with no `user_id`
condition. -/
def doesConversationExist (t : List ConversationRow) (conversationId : String) : Bool :=
  !(t.filter (fun c => c.id == conversationId)).isEmpty

/-- Result envelope of `createNewConversation`. -/
structure CreateResult where
  conversationId : String
  success : Bool
  error : Option String := none
deriving DecidableEq

/-- `createNewConversation`: derive the title (a thrown generation error
is caught and returned as a failure, with no row inserted), then insert
the conversation row with the current timestamp everywhere; a primary
key conflict on the id is likewise caught as a failure. -/
def createNewConversation (env : Env) (t : List ConversationRow) (uid now : String)
    (firstMessage : UIMessage) (conversationId : String) :
    CreateResult × List ConversationRow :=
  match generateTitleIfNotProvided env [firstMessage] with
  | .error e => ({ conversationId := "", success := false, error := some e }, t)
  | .ok finalTitle =>
    if t.any (fun c => c.id == conversationId) then
      ({ conversationId := "", success := false,
         error := some "UNIQUE constraint failed: conversations.id" }, t)
    else
      let row : ConversationRow :=
        { id := conversationId, userId := uid, title := finalTitle,
          lastMessageAt := now, createdAt := now, updatedAt := now }
      ({ conversationId := conversationId, success := true }, t ++ [row])

/-- The `messages` row built for position `idx` of the supplied list. -/
def messageRowOf (env : Env) (uid now conversationId : String)
    (m : UIMessage) (idx : Nat) : MessageRow :=
  { id := m.id, conversationId := conversationId, userId := uid, role := m.role,
    parts := env.encParts m.parts, metadata := m.metadata.map env.encMeta,
    createdAt := now, messageIndex := idx }

/-- One row of the multi-row `INSERT ... ON CONFLICT (id) DO UPDATE`:
on an id conflict only `parts` and `metadata` are overwritten —
`message_index`, `role`, `conversation_id`, `user_id` and `created_at`
keep their original values. -/
def saveMessageRow (t : List MessageRow) (row : MessageRow) : List MessageRow :=
  if t.any (fun r => r.id == row.id) then
    t.map (fun r =>
      if r.id == row.id then { r with parts := row.parts, metadata := row.metadata }
      else r)
  else t ++ [row]

/-- `saveMessages`: one multi-row upsert of the whole supplied list,
`message_index` assigned by position; drizzle throws on an empty values
array. -/
def saveMessages (env : Env) (t : List MessageRow) (uid now conversationId : String)
    (messagesToSave : List UIMessage) : Except String (List MessageRow) :=
  if messagesToSave.isEmpty then .error "values() must be called with at least one value"
  else .ok (messagesToSave.enum.foldl
    (fun acc p => saveMessageRow acc (messageRowOf env uid now conversationId p.2 p.1))
    t)

/-- Result envelope of `saveConversation` / `deleteConversation`. -/
structure OpResult where
  success : Bool
  error : Option String := none
deriving DecidableEq

/-- `saveConversation`: lazily create the conversation when the
(unscoped) existence check fails — the create's own result is ignored —
then upsert the full message list.  An empty message list makes the
lazy-create step a caught no-op (`messages[0]` is undefined) and the
message upsert itself throw. -/
def saveConversation (env : Env) (db : ConvDB) (uid now conversationId : String)
    (msgs : List UIMessage) : OpResult × ConvDB :=
  let convs :=
    if doesConversationExist db.conversations conversationId then db.conversations
    else
      match msgs.head? with
      | some m => (createNewConversation env db.conversations uid now m conversationId).2
      | none => db.conversations
  match saveMessages env db.messageRows uid now conversationId msgs with
  | .error e => ({ success := false, error := some e },
      { conversations := convs, messageRows := db.messageRows })
  | .ok t => ({ success := true }, { conversations := convs, messageRows := t })

/-- Result envelope of `loadConversation`. -/
structure LoadResult where
  conversation : Option ConversationRow
  messages : List UIMessage
  success : Bool
  error : Option String := none
deriving DecidableEq

/-- `loadConversation`: conversation metadata scoped to the owner
(not-found is a failure result), then all rows of the conversation
`ORDER BY message_index ASC`, parts/metadata deserialized. -/
def loadConversation (env : Env) (db : ConvDB) (uid conversationId : String) :
    LoadResult :=
  match db.conversations.filter (fun c => c.id == conversationId && c.userId == uid) with
  | [] =>
    { conversation := none, messages := [], success := false,
      error := some "Conversation not found" }
  | c :: _ =>
    let rows := (db.messageRows.filter (fun r => r.conversationId == conversationId)
      ).insertionSort (fun a b => a.messageIndex ≤ b.messageIndex)
    { conversation := some c,
      messages := rows.map (fun r =>
        { id := r.id, role := r.role, parts := env.decParts r.parts,
          metadata := r.metadata.map env.decMeta }),
      success := true }

/-- `deleteConversation`: ownership is verified first (`WHERE id = ? AND
user_id = ?`); with no owned row the call reports "Conversation not
found" and runs no delete; otherwise the conversation row is deleted and
the cascade removes its message rows. -/
def deleteConversation (db : ConvDB) (uid conversationId : String) :
    OpResult × ConvDB :=
  let owned := db.conversations.filter
    (fun c => c.id == conversationId && c.userId == uid)
  if owned.isEmpty then
    ({ success := false, error := some "Conversation not found" }, db)
  else
    ({ success := true },
      { conversations := db.conversations.filter
          (fun c => !(c.id == conversationId && c.userId == uid)),
        messageRows := db.messageRows.filter
          (fun r => !(r.conversationId == conversationId)) })

/-! ## Concrete fixtures used by closed theorems and witnesses -/

/-- A concrete environment for evaluating the model on closed inputs. -/
def testEnv : Env :=
  { embedText := fun s => .ok [(s.length : ℚ)],
    distCos := fun a b => (a.headD 0 - b.headD 0) * (a.headD 0 - b.headD 0),
    genTitle := fun s => .ok ("About " ++ s),
    encParts := fun _ => "",
    decParts := fun _ => [],
    encMeta := id,
    decMeta := id }

/-- A concrete environment whose title-generation call throws. -/
def envBoom : Env := { testEnv with genTitle := fun _ => .error "Network error" }

/-- A conversation owned by `userA`. -/
def convA : ConversationRow :=
  { id := "c1", userId := "userA", title := "T", lastMessageAt := "t0",
    createdAt := "t0", updatedAt := "t0" }

/-- A user message with a text part. -/
def msgText : UIMessage :=
  { id := "m0", role := .user,
    parts := [{ ptype := "text", text := some "I want to lose weight" }],
    metadata := none }

/-- A user message with no parts. -/
def mA : UIMessage := { id := "a", role := .user, parts := [], metadata := none }

/-- An assistant message with no parts. -/
def mB : UIMessage := { id := "b", role := .assistant, parts := [], metadata := none }

/-- A memory row of owner `u` whose tags are `["xy"]`. -/
def rowXY : MemoryRow :=
  { id := 1, key := "k", value := "v", tags := jsonEncodeTags ["xy"],
    userId := "u", embedding := [], createdAt := "t1" }

/-! ## C1 -/

/-- C1: the claim states the conversation-existence check consults only
conversations owned by the resolved owner and never reports true for
another owner's conversation.  The code's query filters by id alone (the
function does not even consult the user): with the only conversation
`c1` owned by `userA`, the check reports true during `userB`'s save, so
`userB`'s save skips lazy creation and files `userB`'s message rows
under `userA`'s conversation. -/
theorem c1_existence_check_ignores_owner :
    doesConversationExist [convA] "c1" = true ∧
    convA.userId = "userA" ∧
    (saveConversation testEnv { conversations := [convA], messageRows := [] }
        "userB" "t1" "c1" [msgText]).2.conversations = [convA] ∧
    (saveConversation testEnv { conversations := [convA], messageRows := [] }
        "userB" "t1" "c1" [msgText]).2.messageRows.map
        (fun r => (r.conversationId, r.userId)) = [("c1", "userB")] := by
  refine ⟨rfl, rfl, rfl, rfl⟩

/-! ## C6 -/

/-- C6 counterexample: the claim states validation rejects an empty key
or empty value, and that `store("", "", [])` does not reach the
database.  The schema is a bare `z.string()` with no length constraint:
the empty-string input passes validation, the call succeeds, and a row
is written. -/
theorem c6_empty_input_passes_validation :
    memoryStoreSafeParse (.jstr "") (.jstr "") (.jarr []) = true ∧
    (memoryStoreFunction testEnv { rows := [], nextId := 1 } "u1" "t0"
        (.jstr "") (.jstr "") (.jarr [])).1.success = true ∧
    (memoryStoreFunction testEnv { rows := [], nextId := 1 } "u1" "t0"
        (.jstr "") (.jstr "") (.jarr [])).2.rows ≠ [] := by
  refine ⟨rfl, rfl, by decide⟩

/-- C6 amended: the validation step rejects a non-string key or value
and any non-string-array tags before any I/O, returning a structured
failure result and leaving the store untouched; an empty key and empty
value, however, pass the schema (no minimum length), so
`store("", "", [])` does reach the database. -/
theorem c6_validation_rejects_only_type_errors (env : Env) (db : MemoryDB)
    (uid now : String) (key value tags : JValue)
    (h : memoryStoreSafeParse key value tags = false) :
    memoryStoreFunction env db uid now key value tags =
      ({ success := false, error := some "Invalid input" }, db) ∧
    memoryStoreSafeParse (.jstr "") (.jstr "") (.jarr []) = true := by
  refine ⟨?_, rfl⟩
  cases hk : key.asStr <;> cases hv : value.asStr <;> cases ht : tags.asStrArr <;>
    simp [memoryStoreSafeParse, hk, hv, ht] at h <;>
    simp [memoryStoreFunction, hk, hv, ht]

/-- Witness for `c6_validation_rejects_only_type_errors`. -/
theorem c6_validation_rejects_only_type_errors_witness :
    memoryStoreFunction testEnv { rows := [], nextId := 1 } "u1" "t0"
      (.jnum 3) (.jstr "v") (.jarr []) =
      ({ success := false, error := some "Invalid input" },
        { rows := [], nextId := 1 }) :=
  (c6_validation_rejects_only_type_errors testEnv { rows := [], nextId := 1 }
    "u1" "t0" (.jnum 3) (.jstr "v") (.jarr []) rfl).1

/-! ## C7 -/

/-- C7 counterexample: the claim states that whenever the external
title-generation call fails *including by throwing*, create still
succeeds with the default title.  In the code a thrown generation error
propagates into `createNewConversation`'s catch block: the call returns
a failure result and inserts no conversation row. -/
theorem c7_throwing_generation_fails_create :
    (createNewConversation envBoom [] "u1" "t0" msgText "c1").1.success = false ∧
    (createNewConversation envBoom [] "u1" "t0" msgText "c1").1.error =
      some "Network error" ∧
    (createNewConversation envBoom [] "u1" "t0" msgText "c1").2 = [] := by
  refine ⟨rfl, rfl, rfl⟩

/-- C7 amended: when the first message has no user role, no text
segment, or a text part without a text field, the default title
"New Conversation" is used directly and create succeeds (for a fresh
id); when generation returns normally, its text is the title, with the
default substituted for an empty result; but when the generation call
throws, create does not fall back: it returns a failure result and
inserts no row. -/
theorem c7_title_fallback_behavior (env : Env) (t : List ConversationRow)
    (uid now : String) (m : UIMessage) (conversationId : String)
    (hfresh : ∀ c ∈ t, c.id ≠ conversationId) :
    (∀ e, generateTitleIfNotProvided env [m] = .error e →
      createNewConversation env t uid now m conversationId =
        ({ conversationId := "", success := false, error := some e }, t)) ∧
    (∀ ttl, generateTitleIfNotProvided env [m] = .ok ttl →
      createNewConversation env t uid now m conversationId =
        ({ conversationId := conversationId, success := true },
          t ++ [{ id := conversationId, userId := uid, title := ttl,
                  lastMessageAt := now, createdAt := now, updatedAt := now }])) ∧
    (¬ m.role = Role.user → generateTitleIfNotProvided env [m] = .ok "New Conversation") ∧
    (m.parts.find? (fun p => p.ptype == "text") = none →
      generateTitleIfNotProvided env [m] = .ok "New Conversation") ∧
    (∀ p, m.parts.find? (fun p => p.ptype == "text") = some p → p.text = none →
      generateTitleIfNotProvided env [m] = .ok "New Conversation") ∧
    (∀ p txt, m.role = Role.user →
      m.parts.find? (fun p => p.ptype == "text") = some p → p.text = some txt →
      generateTitleIfNotProvided env [m] = generateConversationTitle env txt) ∧
    (∀ txt, env.genTitle txt = .ok "" →
      generateConversationTitle env txt = .ok "New Conversation") := by
  have hfree : t.any (fun c => c.id == conversationId) = false := by
    simp only [List.any_eq_false]
    intro c hc
    simpa using hfresh c hc
  refine ⟨?_, ?_, ?_, ?_, ?_, ?_, ?_⟩
  · intro e he
    simp [createNewConversation, he]
  · intro ttl httl
    simp [createNewConversation, httl, hfree]
  · intro hrole
    have : ([m].find? (fun x => x.role == Role.user)) = none := by
      have hb : (m.role == Role.user) = false := by
        cases hmr : m.role
        · exact absurd hmr hrole
        · rfl
        · rfl
      simp [List.find?, hb]
    simp [generateTitleIfNotProvided, this]
  · intro hfind
    cases hrole : ([m].find? (fun x => x.role == Role.user)) with
    | none => simp [generateTitleIfNotProvided, hrole]
    | some fm =>
      have hm : fm = m := by
        have := List.mem_of_find?_eq_some hrole
        simpa using this
      subst hm
      simp [generateTitleIfNotProvided, hrole, hfind]
  · intro p hfind htext
    cases hrole : ([m].find? (fun x => x.role == Role.user)) with
    | none => simp [generateTitleIfNotProvided, hrole]
    | some fm =>
      have hm : fm = m := by
        have := List.mem_of_find?_eq_some hrole
        simpa using this
      subst hm
      simp [generateTitleIfNotProvided, hrole, hfind, htext]
  · intro p txt hrole hfind htext
    have hfound : ([m].find? (fun x => x.role == Role.user)) = some m := by
      have hb : (m.role == Role.user) = true := by
        rw [hrole]
        rfl
      simp [List.find?, hb]
    simp [generateTitleIfNotProvided, hfound, hfind, htext]
  · intro txt hok
    simp [generateConversationTitle, hok, Except.map]

/-- Witness for `c7_title_fallback_behavior`. -/
theorem c7_title_fallback_behavior_witness :
    createNewConversation envBoom [] "u1" "t0" msgText "c1" =
      ({ conversationId := "", success := false, error := some "Network error" }, []) :=
  (c7_title_fallback_behavior envBoom [] "u1" "t0" msgText "c1" (by simp)).1
    "Network error" rfl

/-! ## C10 -/

/-- C10: the semantic-search schema accepts every numeric `limit` (zero,
negative, non-integer — `z.number().optional()` has no bounds and no
integrality constraint), the value is passed straight into the SQL
`LIMIT`, and a call with `limit = 0` returns a success envelope with an
empty result list rather than a validation error. -/
theorem c10_semantic_search_limit_unchecked (env : Env) (db : MemoryDB)
    (uid q : String) (qe : List ℚ) (hq : env.embedText q = .ok qe) :
    (∀ l : ℚ, memorySemanticSearchSafeParse (.jstr q) (.jnum l) = true) ∧
    (memorySemanticSearchFunction env db uid (.jstr q) (.jnum 0)).success = true ∧
    (memorySemanticSearchFunction env db uid (.jstr q) (.jnum 0)).results = some [] ∧
    (memorySemanticSearchFunction env db uid (.jstr q) (.jnum 0)).count = some 0 := by
  refine ⟨fun l => rfl, ?_⟩
  simp [memorySemanticSearchFunction, JValue.asStr, JValue.asNumOpt, hq, sqlLimit]

/-- Witness for `c10_semantic_search_limit_unchecked`. -/
theorem c10_semantic_search_limit_unchecked_witness :
    memorySemanticSearchSafeParse (.jstr "q") (.jnum ((-7 : ℚ)/2)) = true ∧
    (memorySemanticSearchFunction testEnv { rows := [rowXY], nextId := 2 }
      "u" (.jstr "q") (.jnum 0)).results = some [] := by
  have h := c10_semantic_search_limit_unchecked testEnv
    { rows := [rowXY], nextId := 2 } "u" "q" [(1 : ℚ)] rfl
  exact ⟨h.1 ((-7 : ℚ)/2), h.2.2.1⟩

/-! ## C8 -/

/-- C8: deleting a conversation owned by another user fails with the
"Conversation not found" result (no exception is modelled — the
function returns an envelope) and leaves the whole store — the
conversation row and every message row — unchanged. -/
theorem c8_delete_requires_ownership (db : ConvDB) (uidB conversationId : String)
    (c : ConversationRow) (hc : c ∈ db.conversations) (hid : c.id = conversationId)
    (hother : c.userId ≠ uidB)
    (hnd : (db.conversations.map ConversationRow.id).Nodup) :
    deleteConversation db uidB conversationId =
      ({ success := false, error := some "Conversation not found" }, db) := by
  have hempty : db.conversations.filter
      (fun x => x.id == conversationId && x.userId == uidB) = [] := by
    rw [List.filter_eq_nil_iff]
    intro x hx
    intro hx2
    simp only [Bool.and_eq_true, beq_iff_eq] at hx2
    have hxc : x = c := List.inj_on_of_nodup_map hnd hx hc (by rw [hx2.1, hid])
    exact hother (hxc ▸ hx2.2)
  simp [deleteConversation, hempty]

/-- Witness for `c8_delete_requires_ownership`. -/
theorem c8_delete_requires_ownership_witness :
    deleteConversation { conversations := [convA], messageRows := [] } "userB" "c1" =
      ({ success := false, error := some "Conversation not found" },
        { conversations := [convA], messageRows := [] }) :=
  c8_delete_requires_ownership { conversations := [convA], messageRows := [] }
    "userB" "c1" convA (by simp) rfl (by decide) (by simp)

/-! ## Upsert helpers shared by C2 and C5 -/

/-- The unique-constraint key of a memory row. -/
def memKeyOwner (r : MemoryRow) : String × String := (r.key, r.userId)

/-- The table respects the `unique(key, user_id)` constraint. -/
def WellFormedMem (db : MemoryDB) : Prop := (db.rows.map memKeyOwner).Nodup

theorem pkOwner_iff (k uid : String) (r : MemoryRow) :
    pkOwner k uid r = true ↔ memKeyOwner r = (k, uid) := by
  simp [pkOwner, memKeyOwner, Prod.ext_iff]

theorem filter_pkOwner_of_nodup (l : List MemoryRow) (k uid : String)
    (hnd : (l.map memKeyOwner).Nodup) (hany : l.any (pkOwner k uid) = true) :
    ∃ r₀ ∈ l, l.filter (pkOwner k uid) = [r₀] := by
  induction l with
  | nil => simp at hany
  | cons a l ih =>
    rw [List.map_cons, List.nodup_cons] at hnd
    by_cases ha : pkOwner k uid a = true
    · refine ⟨a, by simp, ?_⟩
      have hrest : l.filter (pkOwner k uid) = [] := by
        rw [List.filter_eq_nil_iff]
        intro x hx hPx
        apply hnd.1
        have h1 : memKeyOwner x = memKeyOwner a := by
          rw [(pkOwner_iff k uid x).mp hPx, (pkOwner_iff k uid a).mp ha]
        exact h1 ▸ List.mem_map_of_mem memKeyOwner hx
      simp [List.filter_cons, ha, hrest]
    · have hany' : l.any (pkOwner k uid) = true := by
        rcases List.any_eq_true.mp hany with ⟨x, hx, hPx⟩
        rcases List.mem_cons.mp hx with rfl | hx
        · exact absurd hPx ha
        · exact List.any_eq_true.mpr ⟨x, hx, hPx⟩
      rcases ih hnd.2 hany' with ⟨r₀, hr₀, hfil⟩
      refine ⟨r₀, by simp [hr₀], ?_⟩
      simp [List.filter_cons, ha, hfil]

/-- After an upsert the table has exactly one row for `(key, owner)`,
holding the freshly supplied value, tags and embedding. -/
theorem upsertMemory_filter (db : MemoryDB) (now k v tg uid : String)
    (emb : List ℚ) (hwf : WellFormedMem db) :
    ∃ i c, (upsertMemory db now k v tg uid emb).rows.filter (pkOwner k uid) =
      [{ id := i, key := k, value := v, tags := tg, userId := uid,
         embedding := emb, createdAt := c }] := by
  unfold upsertMemory
  by_cases hany : db.rows.any (pkOwner k uid) = true
  · rcases filter_pkOwner_of_nodup db.rows k uid hwf hany with ⟨r₀, hr₀, hfil⟩
    have hP₀' : pkOwner k uid r₀ = true :=
      (List.mem_filter.mp (by rw [hfil]; exact List.mem_singleton.mpr rfl)).2
    have hP₀ : r₀.key = k ∧ r₀.userId = uid := by
      simpa [pkOwner] using hP₀'
    refine ⟨r₀.id, r₀.createdAt, ?_⟩
    rw [if_pos hany]
    have hmap : ∀ l : List MemoryRow,
        (l.map (fun r => if pkOwner k uid r then
          { r with value := v, tags := tg, embedding := emb } else r)).filter
        (pkOwner k uid) =
        (l.filter (pkOwner k uid)).map
          (fun r => { r with value := v, tags := tg, embedding := emb }) := by
      intro l
      induction l with
      | nil => rfl
      | cons a l ih =>
        by_cases hPa : pkOwner k uid a = true
        · have hPa' : pkOwner k uid
              { a with value := v, tags := tg, embedding := emb } = true := hPa
          simp only [List.map_cons, if_pos hPa, List.filter_cons, hPa, hPa', if_true, ih]
        · have hPab : pkOwner k uid a = false := by simpa using hPa
          simp only [List.map_cons, List.filter_cons, hPab, if_false,
            Bool.false_eq_true, ih]
    show (List.filter (pkOwner k uid) (List.map _ db.rows)) = _
    rw [hmap db.rows, hfil]
    simp only [List.map_cons, List.map_nil]
    have : ({ r₀ with value := v, tags := tg, embedding := emb } : MemoryRow) =
        { id := r₀.id, key := k, value := v, tags := tg, userId := uid,
          embedding := emb, createdAt := r₀.createdAt } := by
      cases r₀
      simp_all
    rw [this]
  · refine ⟨db.nextId, now, ?_⟩
    rw [if_neg hany]
    have h1 : db.rows.filter (pkOwner k uid) = [] := by
      rw [List.filter_eq_nil_iff]
      intro x hx hPx
      exact hany (List.any_eq_true.mpr ⟨x, hx, hPx⟩)
    have h2 : pkOwner k uid
        { id := db.nextId, key := k, value := v, tags := tg,
          userId := uid, embedding := emb, createdAt := now } = true := by
      simp [pkOwner]
    show List.filter (pkOwner k uid) (db.rows ++ [_]) = _
    rw [List.filter_append, h1, List.nil_append]
    simp [List.filter_cons, h2]

/-- An upsert preserves the `unique(key, user_id)` constraint. -/
theorem upsertMemory_wf (db : MemoryDB) (now k v tg uid : String)
    (emb : List ℚ) (hwf : WellFormedMem db) :
    WellFormedMem (upsertMemory db now k v tg uid emb) := by
  unfold WellFormedMem upsertMemory
  by_cases hany : db.rows.any (pkOwner k uid) = true
  · rw [if_pos hany]
    have : (db.rows.map (fun r =>
        if pkOwner k uid r then
          { r with value := v, tags := tg, embedding := emb } else r)).map memKeyOwner
        = db.rows.map memKeyOwner := by
      rw [List.map_map]
      refine List.map_congr_left ?_
      intro r _
      by_cases hr : pkOwner k uid r = true
      · simp [hr, memKeyOwner]
      · simp [hr, memKeyOwner]
    simpa [this] using hwf
  · rw [if_neg hany]
    simp only [List.map_append, List.map_cons, List.map_nil]
    rw [List.nodup_append]
    refine ⟨hwf, List.nodup_singleton _, ?_⟩
    intro x hx
    simp only [List.mem_singleton]
    rcases List.mem_map.mp hx with ⟨r, hr, hrx⟩
    intro hcontra
    apply hany
    refine List.any_eq_true.mpr ⟨r, hr, ?_⟩
    have : memKeyOwner r = (k, uid) := by
      rw [hrx, hcontra]
      rfl
    exact (pkOwner_iff k uid r).mpr this

/-- `.jarr` of `.jstr`s parses back to the same string list. -/
theorem asStrArr_map_jstr (l : List String) :
    (JValue.jarr (l.map JValue.jstr)).asStrArr = some l := by
  have : ∀ l' : List String, strListOf (l'.map JValue.jstr) = some l' := by
    intro l'
    induction l' with
    | nil => rfl
    | cons a l' ih => simp [strListOf, JValue.asStr, ih]
  simp [JValue.asStrArr, this]

/-! ## C2 -/

/-- C2: two successive `store` calls with the same `(owner, key)` leave
exactly one row for that pair in the memory table, and that row carries
the second call's value, tags (in their stored JSON form) and its
freshly generated embedding. -/
theorem c2_store_twice_latest_wins (env : Env) (db : MemoryDB)
    (uid now₁ now₂ k v₁ v₂ : String) (t₁ t₂ : List String) (e₁ e₂ : List ℚ)
    (hwf : WellFormedMem db)
    (he₁ : env.embedText v₁ = .ok e₁) (he₂ : env.embedText v₂ = .ok e₂) :
    ∃ i c,
      ((memoryStoreFunction env
          (memoryStoreFunction env db uid now₁ (.jstr k) (.jstr v₁)
            (.jarr (t₁.map .jstr))).2
          uid now₂ (.jstr k) (.jstr v₂) (.jarr (t₂.map .jstr))).2.rows.filter
        (pkOwner k uid)) =
      [{ id := i, key := k, value := v₂, tags := jsonEncodeTags t₂, userId := uid,
         embedding := e₂, createdAt := c }] := by
  have hstep : ∀ (d : MemoryDB) (now v : String) (t : List String) (e : List ℚ),
      env.embedText v = .ok e →
      (memoryStoreFunction env d uid now (.jstr k) (.jstr v)
        (.jarr (t.map .jstr))).2 = upsertMemory d now k v (jsonEncodeTags t) uid e := by
    intro d now v t e he
    simp [memoryStoreFunction, JValue.asStr, asStrArr_map_jstr, he]
  rw [hstep _ _ _ _ _ he₁, hstep _ _ _ _ _ he₂]
  exact upsertMemory_filter _ now₂ k v₂ (jsonEncodeTags t₂) uid e₂
    (upsertMemory_wf db now₁ k v₁ (jsonEncodeTags t₁) uid e₁ hwf)

/-- Witness for `c2_store_twice_latest_wins`. -/
theorem c2_store_twice_latest_wins_witness :
    ∃ i c,
      ((memoryStoreFunction testEnv
          (memoryStoreFunction testEnv { rows := [], nextId := 1 } "u1" "t1"
            (.jstr "goal") (.jstr "run") (.jarr (["fitness"].map .jstr))).2
          "u1" "t2" (.jstr "goal") (.jstr "swim") (.jarr (([] : List String).map .jstr))).2.rows.filter
        (pkOwner "goal" "u1")) =
      [{ id := i, key := "goal", value := "swim", tags := jsonEncodeTags [],
         userId := "u1", embedding := [(4 : ℚ)], createdAt := c }] :=
  c2_store_twice_latest_wins testEnv { rows := [], nextId := 1 } "u1" "t1" "t2"
    "goal" "run" "swim" ["fitness"] [] [(3 : ℚ)] [(4 : ℚ)] (by simp [WellFormedMem])
    rfl rfl

/-! ## C5 -/

/-- Every row's embedding is the embedding of its own value. -/
def EmbFresh (env : Env) (db : MemoryDB) : Prop :=
  ∀ r ∈ db.rows, env.embedText r.value = .ok r.embedding

theorem upsertMemory_fresh (env : Env) (db : MemoryDB) (now k v tg uid : String)
    (emb : List ℚ) (h : EmbFresh env db) (hv : env.embedText v = .ok emb) :
    EmbFresh env (upsertMemory db now k v tg uid emb) := by
  unfold upsertMemory
  by_cases hany : db.rows.any (pkOwner k uid) = true
  · rw [if_pos hany]
    intro r hr
    rcases List.mem_map.mp hr with ⟨r₀, hr₀, hrr⟩
    by_cases hc : pkOwner k uid r₀ = true
    · rw [← hrr]
      simpa [hc] using hv
    · rw [← hrr]
      simp only [hc, Bool.false_eq_true, if_false]
      exact h r₀ hr₀
  · rw [if_neg hany]
    intro r hr
    rcases List.mem_append.mp hr with hr | hr
    · exact h r hr
    · rcases List.mem_singleton.mp hr with rfl
      exact hv

theorem embedEntries_fresh (env : Env) (l : List (String × String × List String))
    (l' : List ((String × String × List String) × List ℚ))
    (h : embedEntries env l = .ok l') :
    ∀ p ∈ l', env.embedText p.1.2.1 = .ok p.2 := by
  induction l generalizing l' with
  | nil =>
    simp only [embedEntries] at h
    cases h
    simp
  | cons e l ih =>
    simp only [embedEntries] at h
    cases he : env.embedText e.2.1 with
    | error err => rw [he] at h; cases h
    | ok emb =>
      rw [he] at h
      cases hrest : embedEntries env l with
      | error err => rw [hrest] at h; cases h
      | ok r =>
        rw [hrest] at h
        cases h
        intro p hp
        rcases List.mem_cons.mp hp with rfl | hp
        · exact he
        · exact ih r hrest p hp

/-- C5: every memory create/update path — `memoryStoreFunction`,
`memoryUpdateFunction` and `memoryStoreMultipleFunction` — writes each
row's embedding freshly generated from the value written by the same
operation, so no reachable table ever holds a row whose embedding is
stale relative to its value column. -/
theorem c5_embedding_never_stale (env : Env) (db : MemoryDB) (uid now : String)
    (h : EmbFresh env db) :
    (∀ key value tags,
      EmbFresh env (memoryStoreFunction env db uid now key value tags).2) ∧
    (∀ key value tags,
      EmbFresh env (memoryUpdateFunction env db uid now key value tags).2) ∧
    (∀ memoryList,
      EmbFresh env (memoryStoreMultipleFunction env db uid now memoryList).2) := by
  refine ⟨?_, ?_, ?_⟩
  · intro key value tags
    cases hk : key.asStr <;> cases hv : value.asStr <;> cases ht : tags.asStrArr <;>
      simp only [memoryStoreFunction, hk, hv, ht] <;> try exact h
    rename_i v' _
    cases he : env.embedText v' with
    | error e => simpa [he] using h
    | ok emb =>
      simp only [he]
      exact upsertMemory_fresh env db now _ v' _ uid emb h he
  · intro key value tags
    cases hk : key.asStr <;> cases hv : value.asStr <;> cases ht : tags.asStrArr <;>
      simp only [memoryUpdateFunction, hk, hv, ht] <;> try exact h
    rename_i v' _
    cases he : env.embedText v' with
    | error e => simpa [he] using h
    | ok emb =>
      simp only [he]
      exact upsertMemory_fresh env db now _ v' _ uid emb h he
  · intro memoryList
    cases hp : parseStoreEntries memoryList with
    | none => simpa [memoryStoreMultipleFunction, hp] using h
    | some entries =>
      cases hemb : embedEntries env entries with
      | error err => simpa [memoryStoreMultipleFunction, hp, hemb] using h
      | ok withEmb =>
        simp only [memoryStoreMultipleFunction, hp, hemb]
        have hall := embedEntries_fresh env entries withEmb hemb
        clear hemb hp
        induction withEmb generalizing db with
        | nil => exact h
        | cons p l ih =>
          simp only [List.foldl_cons]
          exact ih _ (upsertMemory_fresh env db now _ _ _ uid _ h
              (hall p (by simp)))
            (fun q hq => hall q (by simp [hq]))

/-- Witness for `c5_embedding_never_stale`. -/
theorem c5_embedding_never_stale_witness :
    EmbFresh testEnv (memoryStoreFunction testEnv { rows := [], nextId := 1 }
      "u1" "t0" (.jstr "k") (.jstr "value") (.jarr [])).2 :=
  ((c5_embedding_never_stale testEnv { rows := [], nextId := 1 } "u1" "t0"
    (by intro r hr; simp at hr)).1) (.jstr "k") (.jstr "value") (.jarr [])

/-! ## ORDER BY / LIMIT helper -/

/-- Specification of `ORDER BY r LIMIT n` over a row list `l`: the
result is a size-`min n (length l)` selection that is sorted, and every
selected row relates to every unselected one. -/
theorem sortTake_spec {α : Type} (r : α → α → Prop) [DecidableRel r]
    (htot : ∀ a b, r a b ∨ r b a) (htrans : ∀ a b c, r a b → r b c → r a c)
    (n : ℕ) (l : List α) :
    ∃ sel rest,
      List.Perm (sel ++ rest) l ∧
      (l.insertionSort r).take n = sel ∧
      sel.length = min n l.length ∧
      List.Sorted r sel ∧
      ∀ x ∈ sel, ∀ y ∈ rest, r x y := by
  haveI : IsTotal α r := ⟨htot⟩
  haveI : IsTrans α r := ⟨fun a b c => htrans a b c⟩
  refine ⟨(l.insertionSort r).take n, (l.insertionSort r).drop n, ?_, rfl, ?_, ?_, ?_⟩
  · rw [List.take_append_drop]
    exact List.perm_insertionSort r l
  · rw [List.length_take, List.length_insertionSort]
  · exact (List.sorted_insertionSort r l).sublist
      (List.take_sublist n (l.insertionSort r))
  · have hs := List.sorted_insertionSort r l
    rw [← List.take_append_drop n (l.insertionSort r)] at hs
    exact (List.pairwise_append.mp hs).2.2

/-! ## C3 -/

/-- C3: `memoryRetrieveFunction` embeds the query, considers only the
resolved owner's rows, and returns the 5 rows of smallest
`vector_distance_cos` to the query embedding, sorted ascending by
distance (every returned row at most as distant as every omitted owned
row); with zero owned rows it returns `null` instead of a result
envelope. -/
theorem c3_retrieve_returns_nearest_five (env : Env) (db : MemoryDB)
    (uid q : String) (qe : List ℚ) (hq : env.embedText q = .ok qe) :
    (db.rows.filter (fun r => r.userId == uid) = [] →
      memoryRetrieveFunction env db uid (.jstr q) = .nullResult) ∧
    (db.rows.filter (fun r => r.userId == uid) ≠ [] →
      ∃ sel rest,
        List.Perm (sel ++ rest) ((db.rows.filter (fun r => r.userId == uid)).map
          (fun r => (r, env.distCos r.embedding qe))) ∧
        memoryRetrieveFunction env db uid (.jstr q) =
          .rows (sel.map (fun p => formatMemoryRow p.1 (some p.2))) ∧
        sel.length = min 5 (db.rows.filter (fun r => r.userId == uid)).length ∧
        List.Sorted (fun a b : MemoryRow × ℚ => a.2 ≤ b.2) sel ∧
        ∀ x ∈ sel, ∀ y ∈ rest, x.2 ≤ y.2) := by
  constructor
  · intro hempty
    simp [memoryRetrieveFunction, JValue.asStr, hq, hempty]
  · intro hne
    obtain ⟨sel, rest, hperm, htake, hlen, hsort, hmin⟩ :=
      sortTake_spec (fun a b : MemoryRow × ℚ => a.2 ≤ b.2)
        (fun a b => le_total a.2 b.2) (fun a b c => le_trans) 5
        ((db.rows.filter (fun r => r.userId == uid)).map
          (fun r => (r, env.distCos r.embedding qe)))
    have hlen' : sel.length =
        min 5 (db.rows.filter (fun r => r.userId == uid)).length := by
      rw [hlen, List.length_map]
    refine ⟨sel, rest, hperm, ?_, hlen', hsort, hmin⟩
    have hpos : 0 < sel.length := by
      rw [hlen']
      have : 0 < (db.rows.filter (fun r => r.userId == uid)).length :=
        List.length_pos.mpr hne
      omega
    simp only [memoryRetrieveFunction, JValue.asStr, hq]
    rw [htake]
    simp [hpos, List.length_pos.mp hpos]

/-- Witness for `c3_retrieve_returns_nearest_five`. -/
theorem c3_retrieve_returns_nearest_five_witness :
    memoryRetrieveFunction testEnv { rows := [rowXY], nextId := 2 } "nobody"
      (.jstr "marathon") = .nullResult :=
  (c3_retrieve_returns_nearest_five testEnv { rows := [rowXY], nextId := 2 }
    "nobody" "marathon" [(8 : ℚ)] rfl).1 (by decide)

/-! ## C4 -/

/-- C4 counterexample: the claim states that after a save, load returns
the messages in the supplied order with `message_index` equal to the
supplied position even when some ids already existed at different
positions.  The upsert in `saveMessages` overwrites only
`parts`/`metadata` on an id conflict, never `message_index`: saving
`[a, b]` and then re-saving `[b, a]` leaves the stored indices at
`a ↦ 0, b ↦ 1`, so load returns `[a, b]`, not the supplied `[b, a]`. -/
theorem c4_resave_does_not_reorder :
    (saveConversation testEnv
        (saveConversation testEnv { conversations := [], messageRows := [] }
          "u" "t1" "c" [mA, mB]).2
        "u" "t2" "c" [mB, mA]).1.success = true ∧
    ([mB, mA].map UIMessage.id = ["b", "a"]) ∧
    (loadConversation testEnv
        (saveConversation testEnv
          (saveConversation testEnv { conversations := [], messageRows := [] }
            "u" "t1" "c" [mA, mB]).2
          "u" "t2" "c" [mB, mA]).2
        "u" "c").messages.map UIMessage.id = ["a", "b"] ∧
    ((saveConversation testEnv
        (saveConversation testEnv { conversations := [], messageRows := [] }
          "u" "t1" "c" [mA, mB]).2
        "u" "t2" "c" [mB, mA]).2.messageRows.map
      (fun r => (r.id, r.messageIndex))) = [("a", 0), ("b", 1)] := by
  refine ⟨rfl, rfl, by decide, by decide⟩

/-- Appending-only behavior of the message upsert when every id is
fresh: folding the per-row upsert over rows built by `g` appends them. -/
theorem foldl_saveMessageRow_append {α : Type} (g : α → MessageRow) :
    ∀ (ps : List α) (acc : List MessageRow),
      ((ps.map g).map MessageRow.id).Nodup →
      (∀ r ∈ acc, ∀ p ∈ ps, r.id ≠ (g p).id) →
      ps.foldl (fun acc p => saveMessageRow acc (g p)) acc = acc ++ ps.map g := by
  intro ps
  induction ps with
  | nil => intro acc _ _; simp
  | cons a ps ih =>
    intro acc hnd hdisj
    rw [List.map_cons, List.map_cons, List.nodup_cons] at hnd
    have hstep : saveMessageRow acc (g a) = acc ++ [g a] := by
      unfold saveMessageRow
      have : acc.any (fun r => r.id == (g a).id) = false := by
        rw [List.any_eq_false]
        intro r hr
        simpa using hdisj r hr a (by simp)
      simp [this]
    rw [List.foldl_cons, hstep, ih (acc ++ [g a]) hnd.2]
    · simp
    · intro r hr p hp
      rcases List.mem_append.mp hr with hr | hr
      · exact hdisj r hr p (by simp [hp])
      · rcases List.mem_singleton.mp hr with rfl
        intro hcontra
        exact hnd.1 (hcontra ▸ List.mem_map_of_mem MessageRow.id
          (List.mem_map_of_mem g hp))

/-- C4 amended: the round trip holds for a *fresh* save — pairwise
distinct message ids not present in the table, and no pre-existing rows
of the conversation: after `save(conversationId, msgs)` succeeds,
`load(conversationId)` returns exactly the supplied messages in the
supplied order, with each row's `message_index` equal to its position.
On id conflicts the upsert keeps the original `message_index` (only
parts/metadata are overwritten), so a re-save at different positions
does *not* reorder. -/
theorem c4_fresh_save_load_roundtrip (env : Env) (db : ConvDB)
    (uid now conversationId : String) (msgs : List UIMessage)
    (m₀ : UIMessage) (ttl : String)
    (hne : msgs.head? = some m₀)
    (hids : (msgs.map UIMessage.id).Nodup)
    (hmsgfresh : ∀ r ∈ db.messageRows,
      (∀ m ∈ msgs, r.id ≠ m.id) ∧ r.conversationId ≠ conversationId)
    (hconv : ((∀ c ∈ db.conversations, c.id ≠ conversationId) ∧
        generateTitleIfNotProvided env [m₀] = .ok ttl) ∨
      ∃ c ∈ db.conversations, c.id = conversationId ∧ c.userId = uid)
    (hrt : ∀ m ∈ msgs, env.decParts (env.encParts m.parts) = m.parts ∧
      (m.metadata.map env.encMeta).map env.decMeta = m.metadata) :
    (saveConversation env db uid now conversationId msgs).1.success = true ∧
    (loadConversation env (saveConversation env db uid now conversationId msgs).2
      uid conversationId).messages = msgs ∧
    ((saveConversation env db uid now conversationId msgs).2.messageRows.filter
      (fun r => r.conversationId == conversationId)).map MessageRow.messageIndex =
      List.range msgs.length := by
  have hnonempty : msgs ≠ [] := by
    intro hcontra
    rw [hcontra] at hne
    cases hne
  -- the rows written by this save
  set newRows := msgs.enum.map
    (fun p => messageRowOf env uid now conversationId p.2 p.1) with hnewRows
  have hnewIds : newRows.map MessageRow.id = msgs.map UIMessage.id := by
    rw [hnewRows, List.map_map]
    have : (MessageRow.id ∘ fun p : ℕ × UIMessage =>
        messageRowOf env uid now conversationId p.2 p.1) =
        (UIMessage.id ∘ Prod.snd) := rfl
    rw [this, ← List.map_map, List.enum_map_snd]
  have hsave : saveMessages env db.messageRows uid now conversationId msgs =
      .ok (db.messageRows ++ newRows) := by
    unfold saveMessages
    rw [if_neg (by simpa using hnonempty)]
    congr 1
    refine foldl_saveMessageRow_append
      (fun p : ℕ × UIMessage => messageRowOf env uid now conversationId p.2 p.1)
      msgs.enum db.messageRows ?_ ?_
    · rw [← hnewRows, hnewIds]; exact hids
    · intro r hr p hp
      exact (hmsgfresh r hr).1 p.2 (List.snd_mem_of_mem_enum hp)
  have hsc : saveConversation env db uid now conversationId msgs =
      ({ success := true },
        { conversations :=
            if doesConversationExist db.conversations conversationId then
              db.conversations
            else
              match msgs.head? with
              | some m => (createNewConversation env db.conversations uid now m
                  conversationId).2
              | none => db.conversations,
          messageRows := db.messageRows ++ newRows }) := by
    unfold saveConversation
    rw [hsave]
  rw [hsc]
  refine ⟨rfl, ?_, ?_⟩
  · -- load returns the supplied messages
    have hmsgfilter : ((db.messageRows ++ newRows).filter
        (fun r => r.conversationId == conversationId)) = newRows := by
      rw [List.filter_append]
      have h1 : db.messageRows.filter
          (fun r => r.conversationId == conversationId) = [] := by
        rw [List.filter_eq_nil_iff]
        intro r hr
        simpa using (hmsgfresh r hr).2
      have h2 : newRows.filter (fun r => r.conversationId == conversationId) =
          newRows := by
        rw [List.filter_eq_self]
        intro r hr
        rcases List.mem_map.mp hr with ⟨p, _, hps⟩
        rw [← hps]
        simp [messageRowOf]
      rw [h1, h2, List.nil_append]
    have hidx : newRows.map MessageRow.messageIndex = List.range msgs.length := by
      rw [hnewRows, List.map_map]
      have : (MessageRow.messageIndex ∘ fun p : ℕ × UIMessage =>
          messageRowOf env uid now conversationId p.2 p.1) = Prod.fst := rfl
      rw [this, List.enum_map_fst]
    have hsorted : List.Sorted
        (fun a b : MessageRow => a.messageIndex ≤ b.messageIndex) newRows := by
      rw [List.Sorted]
      have hmapped : List.Pairwise (· ≤ ·) (newRows.map MessageRow.messageIndex) := by
        rw [hidx]
        exact (List.pairwise_lt_range msgs.length).imp le_of_lt
      exact (List.pairwise_map.mp hmapped)
    have hsorteq : newRows.insertionSort
        (fun a b => a.messageIndex ≤ b.messageIndex) = newRows :=
      List.Sorted.insertionSort_eq hsorted
    have hdec : newRows.map (fun r : MessageRow =>
        ({ id := r.id, role := r.role, parts := env.decParts r.parts,
           metadata := r.metadata.map env.decMeta } : UIMessage)) = msgs := by
      rw [hnewRows, List.map_map]
      have hstep : ∀ p ∈ msgs.enum,
          ((fun r : MessageRow =>
            ({ id := r.id, role := r.role, parts := env.decParts r.parts,
               metadata := r.metadata.map env.decMeta } : UIMessage)) ∘
            fun p : ℕ × UIMessage =>
              messageRowOf env uid now conversationId p.2 p.1) p = p.2 := by
        intro p hp
        have hmem : p.2 ∈ msgs := List.snd_mem_of_mem_enum hp
        have h := hrt p.2 hmem
        simp only [Function.comp_apply, messageRowOf]
        rw [h.1, h.2]
      rw [List.map_congr_left hstep, List.enum_map_snd]
    -- case split on whether the conversation pre-existed
    rcases hconv with ⟨hnoc, httl⟩ | ⟨c, hc, hcid, hcu⟩
    · set newConv : ConversationRow :=
        { id := conversationId, userId := uid, title := ttl,
          lastMessageAt := now, createdAt := now, updatedAt := now } with hnewConv
      have hnotexist : doesConversationExist db.conversations conversationId = false := by
        unfold doesConversationExist
        have : db.conversations.filter (fun c => c.id == conversationId) = [] := by
          rw [List.filter_eq_nil_iff]
          intro c hcmem
          simpa using hnoc c hcmem
        simp [this]
      have hcreate : (createNewConversation env db.conversations uid now m₀
          conversationId).2 = db.conversations ++ [newConv] := by
        unfold createNewConversation
        rw [httl]
        have : db.conversations.any (fun c => c.id == conversationId) = false := by
          rw [List.any_eq_false]
          intro c hcmem
          simpa using hnoc c hcmem
        simp [this]
      have hconvfilter : ((db.conversations ++ [newConv]).filter
          (fun c => c.id == conversationId && c.userId == uid)) = [newConv] := by
        rw [List.filter_append]
        have h1 : db.conversations.filter
            (fun c => c.id == conversationId && c.userId == uid) = [] := by
          rw [List.filter_eq_nil_iff]
          intro c hcmem hcP
          simp only [Bool.and_eq_true, beq_iff_eq] at hcP
          exact hnoc c hcmem hcP.1
        rw [h1, List.nil_append]
        have h2 : (newConv.id == conversationId && newConv.userId == uid) = true := by
          rw [hnewConv]
          simp
        simp [List.filter_cons, h2]
      simp only [hnotexist, Bool.false_eq_true, if_false, hne, hcreate]
      unfold loadConversation
      simp only [hconvfilter, hmsgfilter, hsorteq, hdec]
    · have hexists : doesConversationExist db.conversations conversationId = true := by
        unfold doesConversationExist
        have : c ∈ db.conversations.filter (fun x => x.id == conversationId) :=
          List.mem_filter.mpr ⟨hc, by simp [hcid]⟩
        cases hfil : db.conversations.filter (fun x => x.id == conversationId) with
        | nil => rw [hfil] at this; cases this
        | cons a l => simp
      have hnonnil : db.conversations.filter
          (fun x => x.id == conversationId && x.userId == uid) ≠ [] := by
        intro hcontra
        have : c ∈ db.conversations.filter
            (fun x => x.id == conversationId && x.userId == uid) :=
          List.mem_filter.mpr ⟨hc, by simp [hcid, hcu]⟩
        rw [hcontra] at this
        cases this
      simp only [hexists, if_true]
      unfold loadConversation
      cases hfil : db.conversations.filter
          (fun x => x.id == conversationId && x.userId == uid) with
      | nil => exact absurd hfil hnonnil
      | cons a l => simp only [hmsgfilter, hsorteq, hdec]
  · -- the stored indices are the supplied positions
    have hmsgfilter : ((db.messageRows ++ newRows).filter
        (fun r => r.conversationId == conversationId)) = newRows := by
      rw [List.filter_append]
      have h1 : db.messageRows.filter
          (fun r => r.conversationId == conversationId) = [] := by
        rw [List.filter_eq_nil_iff]
        intro r hr
        simpa using (hmsgfresh r hr).2
      have h2 : newRows.filter (fun r => r.conversationId == conversationId) =
          newRows := by
        rw [List.filter_eq_self]
        intro r hr
        rcases List.mem_map.mp hr with ⟨p, _, hps⟩
        rw [← hps]
        simp [messageRowOf]
      rw [h1, h2, List.nil_append]
    rw [hmsgfilter, hnewRows, List.map_map]
    have : (MessageRow.messageIndex ∘ fun p : ℕ × UIMessage =>
        messageRowOf env uid now conversationId p.2 p.1) = Prod.fst := rfl
    rw [this, List.enum_map_fst]

/-- Witness for `c4_fresh_save_load_roundtrip`. -/
theorem c4_fresh_save_load_roundtrip_witness :
    (saveConversation testEnv { conversations := [], messageRows := [] }
      "u" "t1" "c" [mA]).1.success = true ∧
    (loadConversation testEnv
      (saveConversation testEnv { conversations := [], messageRows := [] }
        "u" "t1" "c" [mA]).2 "u" "c").messages = [mA] ∧
    ((saveConversation testEnv { conversations := [], messageRows := [] }
      "u" "t1" "c" [mA]).2.messageRows.filter
      (fun r => r.conversationId == "c")).map MessageRow.messageIndex =
      List.range 1 :=
  c4_fresh_save_load_roundtrip testEnv { conversations := [], messageRows := [] }
    "u" "t1" "c" [mA] mA "New Conversation" rfl (by decide)
    (by intro r hr; cases hr) (.inl ⟨(by intro c hc; cases hc), rfl⟩)
    (by
      intro m hm
      cases List.mem_singleton.mp hm
      exact ⟨rfl, rfl⟩)

/-! ## C9: characterization of SQLite LIKE on the JSON tags column -/

theorem toNat_charOfNat {n : ℕ} (h : n < 55296) : (Char.ofNat n).toNat = n := by
  unfold Char.ofNat
  rw [dif_pos]
  · rfl
  · exact Or.inl (by exact_mod_cast h)

theorem likeLower_of_not_upper {c : Char} (h : ¬('A' ≤ c ∧ c ≤ 'Z')) :
    likeLower c = c := by
  unfold likeLower
  rw [if_neg h]

theorem toNat_likeLower_of_upper {c : Char} (h : 'A' ≤ c ∧ c ≤ 'Z') :
    (likeLower c).toNat = c.toNat + 32 := by
  unfold likeLower
  rw [if_pos h]
  have h2 : c.toNat ≤ 90 := by
    have h3 := h.2
    rw [Char.le_def] at h3
    exact h3
  exact toNat_charOfNat (by omega)

/-- `likeLower` fixes every character that is not a lowercase ASCII
letter target: for such `d`, `likeLower c = d` holds exactly for
`c = d`. -/
theorem likeLower_eq_special {d : Char} (hd : d.toNat < 97 ∨ 122 < d.toNat)
    (hd2 : ¬('A' ≤ d ∧ d ≤ 'Z')) (c : Char) :
    likeLower c = d ↔ c = d := by
  constructor
  · intro h
    by_cases hu : 'A' ≤ c ∧ c ≤ 'Z'
    · exfalso
      have h1 : 65 ≤ c.toNat := by
        have h3 := hu.1
        rw [Char.le_def] at h3
        exact h3
      have h2 : c.toNat ≤ 90 := by
        have h3 := hu.2
        rw [Char.le_def] at h3
        exact h3
      have h3 : (likeLower c).toNat = c.toNat + 32 := toNat_likeLower_of_upper hu
      rw [h] at h3
      omega
    · rwa [likeLower_of_not_upper hu] at h
  · intro h
    subst h
    exact likeLower_of_not_upper hd2

theorem likeMatch_nil_nil : likeMatchCh [] [] = true := by simp [likeMatchCh]

theorem likeMatch_nil_cons (c : Char) (s : List Char) :
    likeMatchCh [] (c :: s) = false := by simp [likeMatchCh]

theorem likeMatch_cons_nil (p : Char) (ps : List Char) :
    likeMatchCh (p :: ps) [] =
      if p = '%' then likeMatchCh ps [] else false := by
  by_cases hp : p = '%' <;> simp [likeMatchCh, hp]

theorem likeMatch_cons_cons (p : Char) (ps : List Char) (c : Char) (s : List Char) :
    likeMatchCh (p :: ps) (c :: s) =
      if p = '%' then likeMatchCh ps (c :: s) || likeMatchCh (p :: ps) s
      else if p = '_' then likeMatchCh ps s
      else (likeLower p == likeLower c) && likeMatchCh ps s := by
  by_cases hp : p = '%'
  · subst hp
    simp [likeMatchCh, List.tails_cons]
  · simp [likeMatchCh, hp]

/-- A leading `%` matches iff the rest of the pattern matches some
suffix. -/
theorem likeMatch_pct_iff (ps : List Char) (s : List Char) :
    likeMatchCh ('%' :: ps) s = true ↔
      ∃ s', s' <:+ s ∧ likeMatchCh ps s' = true := by
  have h : likeMatchCh ('%' :: ps) s =
      s.tails.any (fun s' => likeMatchCh ps s') := by
    simp [likeMatchCh]
  rw [h, List.any_eq_true]
  exact exists_congr fun s' => and_congr (List.mem_tails _ _) Iff.rfl

/-- A wildcard-free pattern matches exactly the strings equal up to
ASCII case. -/
theorem likeMatch_plain_iff :
    ∀ (q : List Char), '%' ∉ q → '_' ∉ q → ∀ s,
      (likeMatchCh q s = true ↔ q.map likeLower = s.map likeLower) := by
  intro q
  induction q with
  | nil =>
    intro _ _ s
    cases s with
    | nil => simp [likeMatch_nil_nil]
    | cons c s => simp [likeMatch_nil_cons]
  | cons p q ih =>
    intro hpct hund s
    have hp : p ≠ '%' := fun h => hpct (h ▸ List.mem_cons_self p q)
    have hu : p ≠ '_' := fun h => hund (h ▸ List.mem_cons_self p q)
    have hpct' : '%' ∉ q := fun h => hpct (List.mem_cons_of_mem p h)
    have hund' : '_' ∉ q := fun h => hund (List.mem_cons_of_mem p h)
    cases s with
    | nil =>
      rw [likeMatch_cons_nil, if_neg hp]
      simp
    | cons c s =>
      rw [likeMatch_cons_cons, if_neg hp, if_neg hu, Bool.and_eq_true, beq_iff_eq]
      simp only [List.map_cons, List.cons.injEq]
      exact and_congr Iff.rfl (ih hpct' hund' s)

/-- A wildcard-free pattern followed by `%` matches exactly the strings
with a case-matching prefix. -/
theorem likeMatch_plain_pct_iff :
    ∀ (q : List Char), '%' ∉ q → '_' ∉ q → ∀ s,
      (likeMatchCh (q ++ ['%']) s = true ↔
        ∃ s₁ s₂, s = s₁ ++ s₂ ∧ q.map likeLower = s₁.map likeLower) := by
  intro q
  induction q with
  | nil =>
    intro _ _ s
    constructor
    · intro _
      exact ⟨[], s, rfl, rfl⟩
    · intro _
      rw [List.nil_append, likeMatch_pct_iff]
      exact ⟨[], List.nil_suffix, likeMatch_nil_nil⟩
  | cons p q ih =>
    intro hpct hund s
    have hp : p ≠ '%' := fun h => hpct (h ▸ List.mem_cons_self p q)
    have hu : p ≠ '_' := fun h => hund (h ▸ List.mem_cons_self p q)
    have hpct' : '%' ∉ q := fun h => hpct (List.mem_cons_of_mem p h)
    have hund' : '_' ∉ q := fun h => hund (List.mem_cons_of_mem p h)
    cases s with
    | nil =>
      rw [List.cons_append, likeMatch_cons_nil, if_neg hp]
      simp only [Bool.false_eq_true, false_iff]
      rintro ⟨s₁, s₂, hs, hmap⟩
      rcases List.append_eq_nil.mp hs.symm with ⟨rfl, rfl⟩
      simp at hmap
    | cons c s =>
      rw [List.cons_append, likeMatch_cons_cons, if_neg hp, if_neg hu,
        Bool.and_eq_true, beq_iff_eq]
      constructor
      · rintro ⟨hlc, hm⟩
        rcases (ih hpct' hund' s).mp hm with ⟨s₁, s₂, rfl, hmap⟩
        exact ⟨c :: s₁, s₂, rfl, by simp [hlc, hmap]⟩
      · rintro ⟨s₁, s₂, hs, hmap⟩
        cases s₁ with
        | nil => simp at hmap
        | cons c₁ s₁ =>
          rw [List.cons_append] at hs
          rw [List.cons.injEq] at hs
          simp only [List.map_cons, List.cons.injEq] at hmap
          refine ⟨by rw [hmap.1, hs.1], ?_⟩
          exact (ih hpct' hund' s).mpr ⟨s₁, s₂, hs.2, hmap.2⟩

/-- `%mid%` with wildcard-free `mid` matches exactly the strings whose
lowering contains the lowering of `mid` as an infix. -/
theorem likeMatch_infix_iff (mid : List Char) (h1 : '%' ∉ mid) (h2 : '_' ∉ mid)
    (s : List Char) :
    likeMatchCh ('%' :: (mid ++ ['%'])) s = true ↔
      (mid.map likeLower) <:+: (s.map likeLower) := by
  rw [likeMatch_pct_iff]
  constructor
  · rintro ⟨s', hs', hm⟩
    rcases (likeMatch_plain_pct_iff mid h1 h2 s').mp hm with ⟨s₁, s₂, rfl, hmap⟩
    rcases hs' with ⟨u, rfl⟩
    exact ⟨u.map likeLower, s₂.map likeLower, by simp [hmap]⟩
  · rintro ⟨u, v, huv⟩
    rw [List.append_assoc] at huv
    rcases List.map_eq_append_iff.mp huv.symm with ⟨l₁, l₂₃, hs, hl₁, hl₂₃⟩
    rcases List.map_eq_append_iff.mp hl₂₃ with ⟨l₂, l₃, hsplit, hl₂, hl₃⟩
    refine ⟨l₂ ++ l₃, ⟨l₁, by rw [hs, hsplit]⟩, ?_⟩
    exact (likeMatch_plain_pct_iff mid h1 h2 (l₂ ++ l₃)).mpr
      ⟨l₂, l₃, rfl, hl₂.symm⟩

theorem flatMap_escape_clean {t : List Char} (h1 : dq ∉ t) (h2 : bsl ∉ t)
    (h3 : ∀ c ∈ t, 32 ≤ c.toNat) : t.flatMap jsonEscapeChar = t := by
  induction t with
  | nil => rfl
  | cons c t ih =>
    have hc : ¬(c = dq ∨ c = bsl) := by
      rintro (rfl | rfl)
      · exact h1 (List.mem_cons_self _ _)
      · exact h2 (List.mem_cons_self _ _)
    have hge : 32 ≤ c.toNat := h3 c (List.mem_cons_self _ _)
    have hesc : jsonEscapeChar c = [c] := by
      unfold jsonEscapeChar
      rw [if_neg hc, if_neg (by omega), if_neg (by omega), if_neg (by omega),
        if_neg (by omega), if_neg (by omega), if_neg (by omega)]
    rw [List.flatMap_cons, hesc,
      ih (fun h => h1 (List.mem_cons_of_mem c h))
        (fun h => h2 (List.mem_cons_of_mem c h))
        (fun c' h => h3 c' (List.mem_cons_of_mem c h)),
      List.singleton_append]

/-- The JSON encoding of one clean (quote-, backslash- and
control-character-free) tag. -/
theorem jsonQuote_clean {t : List Char} (h1 : dq ∉ t) (h2 : bsl ∉ t)
    (h3 : ∀ c ∈ t, 32 ≤ c.toNat) :
    jsonQuote t = dq :: t ++ [dq] := by
  unfold jsonQuote
  rw [flatMap_escape_clean h1 h2 h3]

/-- The body of a JSON string array with the escaping removed (it is the
identity on clean tags). -/
def jsonBodyP : List (List Char) → List Char
  | [] => []
  | [t] => dq :: t ++ [dq]
  | t :: ts => (dq :: t ++ [dq]) ++ ',' :: jsonBodyP ts

theorem jsonBody_eq_P {ts : List (List Char)}
    (h : ∀ t ∈ ts, dq ∉ t ∧ bsl ∉ t ∧ ∀ c ∈ t, 32 ≤ c.toNat) :
    jsonBody ts = jsonBodyP ts := by
  induction ts with
  | nil => rfl
  | cons t ts ih =>
    have ht := h t (List.mem_cons_self t ts)
    cases ts with
    | nil =>
      show jsonQuote t = jsonBodyP [t]
      rw [jsonQuote_clean ht.1 ht.2.1 ht.2.2]
      rfl
    | cons t₂ ts₂ =>
      show jsonQuote t ++ ',' :: jsonBody (t₂ :: ts₂) = jsonBodyP (t :: t₂ :: ts₂)
      rw [jsonQuote_clean ht.1 ht.2.1 ht.2.2,
        ih (fun x hx => h x (List.mem_cons_of_mem t hx))]
      rfl

theorem jsonBodyP_head (y : List Char) (r : List (List Char)) :
    ∃ w, jsonBodyP (y :: r) = dq :: (y ++ dq :: w) := by
  cases r with
  | nil =>
    refine ⟨[], ?_⟩
    show dq :: y ++ [dq] = dq :: (y ++ dq :: [])
    simp
  | cons z r =>
    refine ⟨',' :: jsonBodyP (z :: r), ?_⟩
    show (dq :: y ++ [dq]) ++ ',' :: jsonBodyP (z :: r) = _
    simp

/-- Quote-free prefixes of an unescaped JSON stream align: the text
before the first quote is determined. -/
theorem firstQuote_eq : ∀ (a b u v : List Char), dq ∉ a → dq ∉ b →
    a ++ dq :: u = b ++ dq :: v → a = b ∧ u = v := by
  intro a
  induction a with
  | nil =>
    intro b u v _ hb h
    cases b with
    | nil => simpa using h
    | cons c b =>
      rw [List.nil_append, List.cons_append, List.cons.injEq] at h
      exact absurd (h.1 ▸ List.mem_cons_self c b) hb
  | cons c a ih =>
    intro b u v ha hb h
    cases b with
    | nil =>
      rw [List.cons_append, List.nil_append, List.cons.injEq] at h
      exact absurd (h.1.symm ▸ List.mem_cons_self c a) ha
    | cons d b =>
      rw [List.cons_append, List.cons_append, List.cons.injEq] at h
      rcases ih b u v (fun hm => ha (List.mem_cons_of_mem c hm))
        (fun hm => hb (List.mem_cons_of_mem d hm)) h.2 with ⟨rfl, rfl⟩
      exact ⟨by rw [h.1], rfl⟩

theorem exists_firstQuote : ∀ (l : List Char), dq ∈ l →
    ∃ a rest, l = a ++ dq :: rest ∧ dq ∉ a := by
  intro l
  induction l with
  | nil => intro h; cases h
  | cons c l ih =>
    intro h
    by_cases hc : c = dq
    · exact ⟨[], l, by simp [hc], by simp⟩
    · have hl : dq ∈ l := by
        rcases List.mem_cons.mp h with h | h
        · exact absurd h.symm hc
        · exact h
      rcases ih hl with ⟨a, rest, rfl, ha⟩
      refine ⟨c :: a, rest, by simp, ?_⟩
      intro hm
      rcases List.mem_cons.mp hm with hm | hm
      · exact hc hm.symm
      · exact ha hm

/-- How an occurrence of a quoted pattern can overlap the first quoted
tag of the stream. -/
theorem overlap_cases (x t s1 s2 rest : List Char) (hx : dq ∉ x) (ht : dq ∉ t)
    (heq : s1 ++ (dq :: t ++ [dq]) ++ s2 = (dq :: x ++ [dq]) ++ rest) :
    (t = x ∧ s1 = [] ∧ s2 = rest) ∨
    (s1 = dq :: x ∧ t ++ dq :: s2 = rest) ∨
    (∃ s1', s1 = (dq :: x ++ [dq]) ++ s1' ∧
      s1' ++ (dq :: t ++ [dq]) ++ s2 = rest) := by
  have heq' : s1 ++ dq :: (t ++ dq :: s2) = dq :: (x ++ dq :: rest) := by
    simpa [List.append_assoc] using heq
  cases s1 with
  | nil =>
    rw [List.nil_append, List.cons.injEq] at heq'
    rcases firstQuote_eq t x s2 rest ht hx heq'.2 with ⟨rfl, hs⟩
    exact Or.inl ⟨rfl, rfl, hs⟩
  | cons c s1₁ =>
    rw [List.cons_append, List.cons.injEq] at heq'
    obtain ⟨rfl, htail⟩ := heq'
    by_cases hq : dq ∈ s1₁
    · rcases exists_firstQuote s1₁ hq with ⟨a, s1₂, rfl, hna⟩
      have htail' : a ++ dq :: (s1₂ ++ dq :: (t ++ dq :: s2)) = x ++ dq :: rest := by
        simpa [List.append_assoc] using htail
      rcases firstQuote_eq a x _ _ hna hx htail' with ⟨rfl, hrest⟩
      refine Or.inr (Or.inr ⟨s1₂, by simp, ?_⟩)
      rw [← hrest]
      simp [List.append_assoc]
    · rcases firstQuote_eq s1₁ x _ _ hq hx htail with ⟨rfl, hrest⟩
      exact Or.inr (Or.inl ⟨rfl, hrest⟩)

/-- Forward direction of the gap characterization: an occurrence of a
quoted clean pattern inside the body is either a whole tag or the
`","` separator between two tags. -/
theorem gap_forward : ∀ (ts : List (List Char)) (s1 s2 t : List Char),
    (∀ x ∈ ts, dq ∉ x) → dq ∉ t →
    s1 ++ (dq :: t ++ [dq]) ++ s2 = jsonBodyP ts →
    t ∈ ts ∨ (t = [','] ∧ 2 ≤ ts.length) := by
  intro ts
  induction ts with
  | nil =>
    intro s1 s2 t _ _ heq
    exfalso
    have hlen := congrArg List.length heq
    simp [jsonBodyP] at hlen
  | cons x ts ih =>
    intro s1 s2 t hclean ht heq
    have hx : dq ∉ x := hclean x (List.mem_cons_self _ _)
    cases ts with
    | nil =>
      have heq' : s1 ++ (dq :: t ++ [dq]) ++ s2 = (dq :: x ++ [dq]) ++ [] := by
        simpa [jsonBodyP] using heq
      rcases overlap_cases x t s1 s2 [] hx ht heq' with h | h | h
      · exact Or.inl (by rw [h.1]; exact List.mem_cons_self _ _)
      · exfalso
        have hlen := congrArg List.length h.2
        simp at hlen
      · exfalso
        rcases h with ⟨s1', _, h2⟩
        have hlen := congrArg List.length h2
        simp at hlen
    | cons y ts' =>
      have heq' : s1 ++ (dq :: t ++ [dq]) ++ s2 =
          (dq :: x ++ [dq]) ++ (',' :: jsonBodyP (y :: ts')) := by
        simpa [jsonBodyP] using heq
      rcases overlap_cases x t s1 s2 _ hx ht heq' with h | h | h
      · exact Or.inl (by rw [h.1]; exact List.mem_cons_self _ _)
      · have h2 := h.2
        cases t with
        | nil =>
          exfalso
          rw [List.nil_append, List.cons.injEq] at h2
          exact absurd h2.1 (by decide)
        | cons c t' =>
          rw [List.cons_append, List.cons.injEq] at h2
          rcases jsonBodyP_head y ts' with ⟨w, hw⟩
          have ht' : dq ∉ t' := fun hm => ht (List.mem_cons_of_mem c hm)
          rcases firstQuote_eq t' [] s2 (y ++ dq :: w) ht' (by simp)
            (by rw [List.nil_append, ← hw]; exact h2.2) with ⟨rfl, _⟩
          refine Or.inr ⟨by rw [h2.1], ?_⟩
          simp [List.length_cons]
      · rcases h with ⟨s1', _, h2⟩
        cases s1' with
        | nil =>
          exfalso
          rw [List.nil_append] at h2
          have h3 : dq :: ((t ++ [dq]) ++ s2) = ',' :: jsonBodyP (y :: ts') := by
            simpa [List.append_assoc] using h2
          rw [List.cons.injEq] at h3
          exact absurd h3.1 (by decide)
        | cons c s1'' =>
          have h3 : c :: (s1'' ++ (dq :: t ++ [dq]) ++ s2) =
              ',' :: jsonBodyP (y :: ts') := by
            simpa [List.append_assoc] using h2
          rw [List.cons.injEq] at h3
          rcases ih s1'' s2 t (fun z hz => hclean z (List.mem_cons_of_mem x hz))
            ht h3.2 with h3 | h3
          · exact Or.inl (List.mem_cons_of_mem x h3)
          · refine Or.inr ⟨h3.1, ?_⟩
            simp [List.length_cons]

/-- Backward direction, membership: every tag occurs quoted in the
body. -/
theorem gap_mem : ∀ (ts : List (List Char)) (t : List Char), t ∈ ts →
    (dq :: t ++ [dq]) <:+: jsonBodyP ts := by
  intro ts
  induction ts with
  | nil => intro t h; cases h
  | cons x ts ih =>
    intro t h
    rcases List.mem_cons.mp h with rfl | h
    · cases ts with
      | nil => exact ⟨[], [], by simp [jsonBodyP]⟩
      | cons y ts' =>
        refine ⟨[], ',' :: jsonBodyP (y :: ts'), ?_⟩
        show ([] ++ (dq :: t ++ [dq])) ++ ',' :: jsonBodyP (y :: ts') = _
        simp [jsonBodyP]
    · cases ts with
      | nil => cases h
      | cons y ts' =>
        rcases ih t h with ⟨u, v, huv⟩
        refine ⟨(dq :: x ++ [dq]) ++ ',' :: u, v, ?_⟩
        have hbody : jsonBodyP (x :: y :: ts') =
            (dq :: x ++ [dq]) ++ ',' :: jsonBodyP (y :: ts') := rfl
        rw [hbody, ← huv]
        simp [List.append_assoc]

/-- Backward direction, separator: with at least two tags the `","`
separator occurs quoted in the body. -/
theorem gap_comma (ts : List (List Char)) (h : 2 ≤ ts.length) :
    (dq :: [','] ++ [dq]) <:+: jsonBodyP ts := by
  match ts, h with
  | x :: y :: r, _ =>
    rcases jsonBodyP_head y r with ⟨w, hw⟩
    refine ⟨dq :: x, y ++ dq :: w, ?_⟩
    have hbody : jsonBodyP (x :: y :: r) =
        (dq :: x ++ [dq]) ++ ',' :: jsonBodyP (y :: r) := rfl
    rw [hbody, hw]
    simp

/-- Stripping a non-matching head from the infix relation. -/
theorem infix_cons_of_head_ne {b : Char} {p' : List Char} {a : Char}
    {l : List Char} (hba : b ≠ a) :
    ((b :: p') <:+: a :: l) ↔ ((b :: p') <:+: l) := by
  constructor
  · rintro ⟨s, t, h⟩
    cases s with
    | nil =>
      rw [List.nil_append, List.cons_append, List.cons.injEq] at h
      exact absurd h.1 hba
    | cons c s =>
      have h' : c :: (s ++ (b :: p') ++ t) = a :: l := by
        simpa [List.append_assoc] using h
      rw [List.cons.injEq] at h'
      exact ⟨s, t, h'.2⟩
  · rintro ⟨s, t, h⟩
    exact ⟨a :: s, t, by rw [← h]; simp⟩

/-- Stripping a non-matching last element from the infix relation. -/
theorem infix_concat_of_last_ne {b : Char} {p' : List Char} {a : Char}
    {l : List Char} (hba : b ≠ a) :
    ((p' ++ [b]) <:+: l ++ [a]) ↔ ((p' ++ [b]) <:+: l) := by
  constructor
  · intro h
    have h1 : (b :: p'.reverse) <:+: (a :: l.reverse) := by
      have := List.reverse_infix.mpr h
      simpa using this
    have h2 := (infix_cons_of_head_ne hba).mp h1
    have h3 : (p' ++ [b]).reverse <:+: l.reverse := by simpa using h2
    exact List.reverse_infix.mp h3
  · intro h
    have h1 : (b :: p'.reverse) <:+: l.reverse := by
      have := List.reverse_infix.mpr h
      simpa using this
    have h2 : (b :: p'.reverse) <:+: (a :: l.reverse) :=
      (infix_cons_of_head_ne hba).mpr h1
    have h3 : (p' ++ [b]).reverse <:+: (l ++ [a]).reverse := by simpa using h2
    exact List.reverse_infix.mp h3

/-- `likeLower` commutes with the unescaped body structure. -/
theorem map_lower_jsonBodyP : ∀ (ts : List (List Char)),
    (jsonBodyP ts).map likeLower = jsonBodyP (ts.map (List.map likeLower)) := by
  have hdq : likeLower dq = dq := by decide
  have hcm : likeLower ',' = ',' := by decide
  intro ts
  induction ts with
  | nil => rfl
  | cons x ts ih =>
    cases ts with
    | nil =>
      show (dq :: x ++ [dq]).map likeLower = dq :: x.map likeLower ++ [dq]
      simp [hdq]
    | cons y ts' =>
      show ((dq :: x ++ [dq]) ++ ',' :: jsonBodyP (y :: ts')).map likeLower =
        (dq :: x.map likeLower ++ [dq]) ++
          ',' :: jsonBodyP ((y :: ts').map (List.map likeLower))
      simp only [List.map_append, List.map_cons, hdq, hcm, ih]
      rfl

theorem not_mem_map_lower_of_special {d : Char} (hd : d.toNat < 97 ∨ 122 < d.toNat)
    (hd2 : ¬('A' ≤ d ∧ d ≤ 'Z')) {t : List Char} (h : d ∉ t) :
    d ∉ t.map likeLower := by
  intro hm
  rcases List.mem_map.mp hm with ⟨c, hc, hcd⟩
  apply h
  rw [← (likeLower_eq_special hd hd2 c).mp hcd]
  exact hc

theorem map_lower_eq_comma {l : List Char} (h : l.map likeLower = [',']) :
    l = [','] := by
  cases l with
  | nil => simp at h
  | cons c l' =>
    cases l' with
    | nil =>
      simp only [List.map_cons, List.map_nil, List.cons.injEq, and_true] at h
      rw [(likeLower_eq_special (by decide) (by decide) c).mp h]
    | cons d l'' => simp at h

/-- The LIKE pattern `%"t"%` applied to the JSON-encoded tags column:
for a clean, wildcard-free query tag other than `","` it holds exactly
when some stored tag equals `t` up to ASCII case. -/
theorem likeTag_iff (t : String) (xs : List String)
    (ht1 : dq ∉ t.data) (ht2 : bsl ∉ t.data) (ht3 : '%' ∉ t.data)
    (ht4 : '_' ∉ t.data) (ht5 : t ≠ ",")
    (hxs : ∀ x ∈ xs, dq ∉ x.data ∧ bsl ∉ x.data ∧ ∀ c ∈ x.data, 32 ≤ c.toNat) :
    likeMatchCh ('%' :: dq :: t.data ++ [dq, '%']) (jsonEncodeTags xs).data = true ↔
      ∃ x ∈ xs, x.data.map likeLower = t.data.map likeLower := by
  have hmid1 : '%' ∉ dq :: t.data ++ [dq] := by
    intro hm
    rcases List.mem_cons.mp hm with hm | hm
    · exact absurd hm.symm (by decide)
    · rcases List.mem_append.mp hm with hm | hm
      · exact ht3 hm
      · exact absurd (List.mem_singleton.mp hm).symm (by decide)
  have hmid2 : '_' ∉ dq :: t.data ++ [dq] := by
    intro hm
    rcases List.mem_cons.mp hm with hm | hm
    · exact absurd hm.symm (by decide)
    · rcases List.mem_append.mp hm with hm | hm
      · exact ht4 hm
      · exact absurd (List.mem_singleton.mp hm).symm (by decide)
  have hpat : ('%' :: dq :: t.data ++ [dq, '%']) =
      '%' :: ((dq :: t.data ++ [dq]) ++ ['%']) := by simp
  rw [hpat, likeMatch_infix_iff _ hmid1 hmid2]
  have hdq : likeLower dq = dq := by decide
  have hlb : likeLower '[' = '[' := by decide
  have hrb : likeLower ']' = ']' := by decide
  have hmid : (dq :: t.data ++ [dq]).map likeLower =
      dq :: (t.data.map likeLower) ++ [dq] := by simp [hdq]
  have hs : (jsonEncodeTags xs).data =
      '[' :: jsonBody (xs.map String.data) ++ [']'] := rfl
  have hclean : ∀ l ∈ xs.map String.data,
      dq ∉ l ∧ bsl ∉ l ∧ ∀ c ∈ l, 32 ≤ c.toNat := by
    intro l hl
    rcases List.mem_map.mp hl with ⟨x, hx, rfl⟩
    exact hxs x hx
  have hsmap : ((jsonEncodeTags xs).data).map likeLower =
      '[' :: jsonBodyP ((xs.map String.data).map (List.map likeLower)) ++ [']'] := by
    rw [hs, jsonBody_eq_P hclean]
    simp [hlb, hrb, map_lower_jsonBodyP]
  rw [hmid, hsmap]
  have hstrip1 : ((dq :: (t.data.map likeLower) ++ [dq]) <:+:
      '[' :: jsonBodyP ((xs.map String.data).map (List.map likeLower)) ++ [']']) ↔
      ((dq :: (t.data.map likeLower) ++ [dq]) <:+:
        jsonBodyP ((xs.map String.data).map (List.map likeLower)) ++ [']']) :=
    infix_cons_of_head_ne (by decide)
  have hstrip2 : ((dq :: (t.data.map likeLower)) ++ [dq] <:+:
      jsonBodyP ((xs.map String.data).map (List.map likeLower)) ++ [']']) ↔
      ((dq :: (t.data.map likeLower)) ++ [dq] <:+:
        jsonBodyP ((xs.map String.data).map (List.map likeLower))) :=
    infix_concat_of_last_ne (by decide)
  have hshape : (dq :: (t.data.map likeLower) ++ [dq]) =
      (dq :: (t.data.map likeLower)) ++ [dq] := by simp
  rw [hstrip1, hshape, hstrip2, ← hshape]
  have hcleanlow : ∀ l ∈ (xs.map String.data).map (List.map likeLower), dq ∉ l := by
    intro l hl
    rcases List.mem_map.mp hl with ⟨l', hl', rfl⟩
    exact not_mem_map_lower_of_special (by decide) (by decide) (hclean l' hl').1
  have htlow : dq ∉ t.data.map likeLower :=
    not_mem_map_lower_of_special (by decide) (by decide) ht1
  constructor
  · rintro ⟨s1, s2, heq⟩
    rcases gap_forward _ s1 s2 _ hcleanlow htlow heq with h | h
    · rcases List.mem_map.mp h with ⟨l', hl', hll⟩
      rcases List.mem_map.mp hl' with ⟨x, hx, rfl⟩
      exact ⟨x, hx, hll⟩
    · exfalso
      apply ht5
      have := map_lower_eq_comma h.1
      have hdata : t.data = [','] := this
      have hcomma : ("," : String).data = [','] := rfl
      cases t
      simp_all
  · rintro ⟨x, hx, hmap⟩
    have hmem : t.data.map likeLower ∈
        (xs.map String.data).map (List.map likeLower) := by
      rw [← hmap]
      exact List.mem_map_of_mem _ (List.mem_map_of_mem _ hx)
    exact gap_mem _ _ hmem

/-- C9 counterexample: the claim states searchByTags returns exactly
the owned rows whose tags contain at least one of the given tags.  The
implementation matches with SQL `LIKE '%"tag"%'` against the
JSON-encoded tags column, in which `_` is a single-character wildcard:
the query tag `"x_"` matches a row whose only tag is `"xy"`, so a row
whose tags do *not* contain any given tag is returned. -/
theorem c9_like_wildcard_false_positive :
    (memorySearchByTagsFunction testEnv { rows := [rowXY], nextId := 2 } "u"
      (.jarr [.jstr "x_"]) (.jnum 10)).success = true ∧
    (memorySearchByTagsFunction testEnv { rows := [rowXY], nextId := 2 } "u"
      (.jarr [.jstr "x_"]) (.jnum 10)).results =
      some [formatMemoryRow rowXY none] ∧
    jsonDecodeTags rowXY.tags = ["xy"] ∧
    ¬ ("x_" ∈ jsonDecodeTags rowXY.tags) := by
  refine ⟨by decide, by decide, by decide, by decide⟩

/-- C9 amended: for query tags free of LIKE wildcards (`%`, `_`),
quotes and backslashes and different from the literal string `","`, and
rows whose stored tags are quote-, backslash- and
control-character-free (so that JSON.stringify leaves them unescaped in
the tags column), searchByTags returns exactly the owned rows having at
least one tag equal — up to ASCII case, since SQLite LIKE is
ASCII-case-insensitive — to one of the given tags (OR semantics),
ordered by created_at descending and capped at the limit. -/
theorem c9_searchByTags_or_membership (env : Env) (db : MemoryDB) (uid : String)
    (ts : List String) (n : ℕ) (RT : MemoryRow → List String)
    (hts : ts ≠ [])
    (htsclean : ∀ t ∈ ts, dq ∉ t.data ∧ bsl ∉ t.data ∧ '%' ∉ t.data ∧
      '_' ∉ t.data ∧ t ≠ ",")
    (hrows : ∀ r ∈ db.rows, r.tags = jsonEncodeTags (RT r) ∧
      ∀ x ∈ RT r, dq ∉ x.data ∧ bsl ∉ x.data ∧ ∀ c ∈ x.data, 32 ≤ c.toNat) :
    (memorySearchByTagsFunction env db uid (.jarr (ts.map .jstr))
      (.jnum (n : ℚ))).success = true ∧
    ∃ sel rest,
      List.Perm (sel ++ rest) (db.rows.filter (fun r => r.userId == uid &&
        ts.any (fun t => (RT r).any (fun x =>
          x.data.map likeLower == t.data.map likeLower)))) ∧
      (memorySearchByTagsFunction env db uid (.jarr (ts.map .jstr))
        (.jnum (n : ℚ))).results =
        some (sel.map (fun r => formatMemoryRow r none)) ∧
      sel.length = min n (db.rows.filter (fun r => r.userId == uid &&
        ts.any (fun t => (RT r).any (fun x =>
          x.data.map likeLower == t.data.map likeLower)))).length ∧
      List.Sorted (fun a b : MemoryRow => b.createdAt ≤ a.createdAt) sel ∧
      ∀ x ∈ sel, ∀ y ∈ rest, y.createdAt ≤ x.createdAt := by
  have hempty : ts.isEmpty = false := by
    cases ts with
    | nil => exact absurd rfl hts
    | cons a l => rfl
  have hfilter : db.rows.filter (fun r => r.userId == uid &&
      (ts.map (fun t => '%' :: dq :: t.data ++ [dq, '%'])).any
        (fun p => likeMatchCh p r.tags.data)) =
      db.rows.filter (fun r => r.userId == uid &&
        ts.any (fun t => (RT r).any (fun x =>
          x.data.map likeLower == t.data.map likeLower))) := by
    apply List.filter_congr
    intro r hr
    have hinner : ((ts.map (fun t => '%' :: dq :: t.data ++ [dq, '%'])).any
        (fun p => likeMatchCh p r.tags.data)) =
        (ts.any (fun t => (RT r).any (fun x =>
          x.data.map likeLower == t.data.map likeLower))) := by
      rw [Bool.eq_iff_iff, List.any_eq_true, List.any_eq_true]
      constructor
      · rintro ⟨p, hp, hm⟩
        rcases List.mem_map.mp hp with ⟨t, ht, rfl⟩
        have h5 := htsclean t ht
        rw [(hrows r hr).1] at hm
        rcases (likeTag_iff t (RT r) h5.1 h5.2.1 h5.2.2.1 h5.2.2.2.1
          h5.2.2.2.2 (hrows r hr).2).mp hm with ⟨x, hxx, hmap⟩
        exact ⟨t, ht, List.any_eq_true.mpr ⟨x, hxx, by simp [hmap]⟩⟩
      · rintro ⟨t, ht, hin⟩
        rcases List.any_eq_true.mp hin with ⟨x, hxx, hbe⟩
        have hmap : x.data.map likeLower = t.data.map likeLower := by
          simpa using hbe
        have h5 := htsclean t ht
        refine ⟨'%' :: dq :: t.data ++ [dq, '%'], List.mem_map_of_mem _ ht, ?_⟩
        rw [(hrows r hr).1]
        exact (likeTag_iff t (RT r) h5.1 h5.2.1 h5.2.2.1 h5.2.2.2.1
          h5.2.2.2.2 (hrows r hr).2).mpr ⟨x, hxx, hmap⟩
    rw [hinner]
  obtain ⟨sel, rest, hperm, htake, hlen, hsort, hmin⟩ :=
    sortTake_spec (fun a b : MemoryRow => b.createdAt ≤ a.createdAt)
      (fun a b => le_total b.createdAt a.createdAt)
      (fun a b c h1 h2 => le_trans h2 h1) n
      (db.rows.filter (fun r => r.userId == uid &&
        ts.any (fun t => (RT r).any (fun x =>
          x.data.map likeLower == t.data.map likeLower))))
  have hsl : ∀ (l : List MemoryRow), sqlLimit ((n : ℚ)) l = .ok (l.take n) := by
    intro l
    unfold sqlLimit
    rw [if_neg (by simp [Rat.den_natCast]), if_neg (by simp [not_lt]),
      Rat.num_natCast, Int.toNat_natCast]
  have hfun : memorySearchByTagsFunction env db uid (.jarr (ts.map .jstr))
      (.jnum (n : ℚ)) =
      { success := true,
        results := some (sel.map (fun r => formatMemoryRow r none)),
        count := some (sel.map (fun r => formatMemoryRow r none)).length,
        message := some ("Found " ++
          toString (sel.map (fun r => formatMemoryRow r none)).length ++
          " memories with tags: " ++ String.intercalate ", " ts) } := by
    simp only [memorySearchByTagsFunction, asStrArr_map_jstr, JValue.asNumOpt,
      Option.getD_some, hempty, Bool.false_eq_true, if_false, hfilter, hsl, htake]
  rw [hfun]
  exact ⟨rfl, sel, rest, hperm, rfl, hlen, hsort, hmin⟩

/-- Witness for `c9_searchByTags_or_membership`. -/
theorem c9_searchByTags_or_membership_witness :
    (memorySearchByTagsFunction testEnv { rows := [rowXY], nextId := 2 } "u"
      (.jarr (["x"].map .jstr)) (.jnum ((10 : ℕ) : ℚ))).success = true :=
  (c9_searchByTags_or_membership testEnv { rows := [rowXY], nextId := 2 } "u"
    ["x"] 10 (fun _ => ["xy"]) (by decide) (by decide)
    (by
      intro r hr
      rcases List.mem_singleton.mp hr with rfl
      refine ⟨rfl, by decide⟩)).1

end Moach
